import Mathlib

/-!
# libks: a shallow embedding of `ks/log.cpp`, `ks/log.h`, `ks/utils.h` and `nanotimer`

Conventions of the embedding.

* `std::string` and the text of a `std::stringstream` are Lean strings.
* `std::map<K, V>` is an association list kept in ascending key order (`StdMap`).
* `logger *` is an address (`Ptr`); the live `logger` objects are the entries of
  `World.heap`.  `new` takes the address it returns as an argument, `delete`
  removes the entry.
* A C++ call either returns (`Outcome.ok`) or stops (`Outcome.fail`) with the
  state reached so far: a thrown exception, or an operation the language leaves
  undefined (reading through a pointer to no live object, `vector::erase(end())`).
* Handlers are reached through `LogHandler *`; `handleLog` is virtual.  The
  service itself is one handler; other handlers are stand-ins that read the
  record and either return or raise.  Handlers do not re-enter the service and
  do not write through the record pointer.
-/

namespace ks

/-! ## Basic types -/

/-- Thread identifier, `typedef uint64_t ks_thread_id` in `thread.h`. -/
abbrev ks_thread_id := Nat

/-- Address of a `logger` object. -/
abbrev Ptr := Nat

/-- Severity scale, `enum LogLevel` in `log.h`. -/
inductive LogLevel where
  | Error
  | Warning
  | Info
  | Fine
  | Debug
deriving DecidableEq, Repr

/-- Enumerator values of `LogLevel`: Error = 5, Warning = 4, Info = 3, Fine = 2, Debug = 1. -/
def LogLevel.toNat : LogLevel → Nat
  | .Error => 5
  | .Warning => 4
  | .Info => 3
  | .Fine => 2
  | .Debug => 1

/-- Directive values, `enum LogMeta` in `log.h`. -/
inductive LogMeta where
  | endl
  | flush
deriving DecidableEq, Repr

/-- Fields of `class logger`; `buf_` is the text held by the `std::stringstream`. -/
structure logger where
  thread_ : ks_thread_id
  title_ : String
  level_ : LogLevel
  autoflush_ : Bool
  buf_ : String
deriving DecidableEq, Repr

/-- Constructor `logger::logger(id, title, level, autoflush)`: the buffer starts empty. -/
def logger.mk_new (id : ks_thread_id) (title : String) (level : LogLevel) (autoflush : Bool) : logger :=
  { thread_ := id, title_ := title, level_ := level, autoflush_ := autoflush, buf_ := "" }

/-- Accessor `logger::content()`: the text of the buffer. -/
def logger.content (l : logger) : String := l.buf_

/-- Reasons for a call to stop before returning. -/
inductive Fault where
  | runtime_error (what : String)
  | handler_failure (h : Nat)
  | undefined_behaviour
deriving DecidableEq, Repr

/-- Result of running a call from a state of type `σ`. -/
inductive Outcome (σ : Type) (α : Type) where
  | ok (val : α) (s : σ)
  | fail (f : Fault) (s : σ)
deriving DecidableEq, Repr

/-- State in which a call ended, whether it returned or stopped. -/
def Outcome.state {σ α : Type} : Outcome σ α → σ
  | .ok _ s => s
  | .fail _ s => s

/-- Whether the call returned normally. -/
def Outcome.returned {σ α : Type} : Outcome σ α → Bool
  | .ok _ _ => true
  | .fail _ _ => false

/-! ## `std::map` -/

/-- Key order of a `std::map`: keys are compared through their rank. -/
class KeyRank (K : Type) where
  rank : K → Nat

instance : KeyRank Nat := ⟨fun n => n⟩

instance : KeyRank LogLevel := ⟨LogLevel.toNat⟩

/-- Contents of a `std::map<K, V>`, in iteration order. -/
abbrev StdMap (K V : Type) := List (K × V)

/-- Member `std::map::empty()`. -/
def StdMap.empty {K V : Type} (m : StdMap K V) : Bool := m.isEmpty

/-- Member `std::map::find(k)`: the mapped value, `none` for `end()`. -/
def StdMap.find {K V : Type} [DecidableEq K] (k : K) : StdMap K V → Option V
  | [] => none
  | (k', v) :: rest => if k' = k then some v else StdMap.find k rest

/-- Member `std::map::erase(k)`. -/
def StdMap.erase {K V : Type} [DecidableEq K] (k : K) (m : StdMap K V) : StdMap K V :=
  m.filter (fun e => decide (e.1 ≠ k))

/-- Assignment `m[k] = v`: replaces the value of `k`, or inserts it at its place in key order. -/
def StdMap.assign {K V : Type} [DecidableEq K] [KeyRank K] (k : K) (v : V) : StdMap K V → StdMap K V
  | [] => [(k, v)]
  | (k', v') :: rest =>
    if k' = k then (k, v) :: rest
    else if KeyRank.rank k < KeyRank.rank k' then (k, v) :: (k', v') :: rest
    else (k', v') :: StdMap.assign k v rest

/-- Macro `hasKeyInMap(key, mapobj)` of `utils.h`: non-empty and `find(key) != end()`. -/
def hasKeyInMap {K V : Type} [DecidableEq K] (key : K) (mapobj : StdMap K V) : Bool :=
  (!mapobj.empty) && (mapobj.find key).isSome

/-! ## `std::string` helpers of `utils.h` -/

/-- Constant `std::string::npos`, the largest `size_t`. -/
def npos : Nat := 2 ^ 64 - 1

/-- Search of `std::string::find(c, pos)` over the characters from index `i` on. -/
def findFrom (c : Char) : List Char → Nat → Nat
  | [], _ => npos
  | x :: rest, i => if x = c then i else findFrom c rest (i + 1)

/-- Member `std::string::find(c, pos)`: first index at or after `pos` holding `c`, else `npos`. -/
def string_find (str : String) (c : Char) (pos : Nat) : Nat :=
  findFrom c (str.data.drop pos) pos

/-- Function `string_endswith(str, c)`: `str.find(c, str.length()-1) != npos`, the
subtraction taken in `size_t` (modulo 2^64). -/
def string_endswith (str : String) (c : Char) : Bool :=
  string_find str c ((str.length + 2 ^ 64 - 1) % 2 ^ 64) != npos

/-! ## Output streams -/

/-- Observable state of a `std::ostream`: characters inserted and explicit flushes. -/
structure ostream where
  text : String
  flushes : Nat
deriving DecidableEq, Repr

/-- Insertion `out << s`. -/
def ostream.put (out : ostream) (s : String) : ostream :=
  { out with text := out.text ++ s }

/-- Insertion `out << std::flush`. -/
def ostream.flush (out : ostream) : ostream :=
  { out with flushes := out.flushes + 1 }

/-! ## Handler registry (`LogHandlerManager`) -/

/-- Algorithm `std::find(begin, end, x)` as an index; the length stands for `end()`. -/
def std_find {H : Type} [DecidableEq H] (x : H) : List H → Nat
  | [] => 0
  | y :: rest => if y = x then 0 else std_find x rest + 1

/-- Member `std::vector::erase(it)`: defined only for an iterator to an element. -/
def vector_erase {H : Type} (v : List H) (it : Nat) : Option (List H) :=
  if it < v.length then some (v.eraseIdx it) else none

/-- Method `LogHandlerManager::addHandler`: `handlers.push_back(handler)`. -/
def LogHandlerManager.addHandler {H : Type} (handlers : List H) (handler : H) : List H :=
  handlers ++ [handler]

/-- Method `LogHandlerManager::removeHandler`:
`handlers.erase(std::find(handlers.begin(), handlers.end(), handler))`. -/
def LogHandlerManager.removeHandler {H : Type} [DecidableEq H] (handlers : List H) (handler : H) :
    Outcome (List H) Unit :=
  match vector_erase handlers (std_find handler handlers) with
  | some v => .ok () v
  | none => .fail .undefined_behaviour handlers

/-- Method `LogHandlerManager::dispatch`: the loop over `handlers` calling
`h->handleLog(msg)`, then `this->clean(msg)`.  `handleLog` and `clean` are the
virtual functions the call resolves to. -/
def LogHandlerManager.dispatch {σ H M : Type} (handleLog : H → M → σ → Outcome σ Unit)
    (clean : M → σ → Outcome σ Unit) : List H → M → σ → Outcome σ Unit
  | [], msg, s => clean msg s
  | h :: rest, msg, s =>
    match handleLog h msg s with
    | .ok _ s1 => LogHandlerManager.dispatch handleLog clean rest msg s1
    | .fail e s1 => .fail e s1

/-- One call made by `dispatch`. -/
inductive Call (H M : Type) where
  | handleLog (h : H) (msg : M)
  | clean (msg : M)
deriving DecidableEq, Repr

/-- A `handleLog` that also notes each call it receives in a call log. -/
def recordHandleLog {σ H M : Type} (f : H → M → σ → Outcome σ Unit) :
    H → M → σ × List (Call H M) → Outcome (σ × List (Call H M)) Unit :=
  fun h msg st =>
    match f h msg st.1 with
    | .ok _ s => .ok () (s, st.2 ++ [Call.handleLog h msg])
    | .fail e s => .fail e (s, st.2 ++ [Call.handleLog h msg])

/-- A `clean` that also notes each call it receives in a call log. -/
def recordClean {σ H M : Type} (g : M → σ → Outcome σ Unit) :
    M → σ × List (Call H M) → Outcome (σ × List (Call H M)) Unit :=
  fun msg st =>
    match g msg st.1 with
    | .ok _ s => .ok () (s, st.2 ++ [Call.clean msg])
    | .fail e s => .fail e (s, st.2 ++ [Call.clean msg])

/-- Number of `clean` calls in a call log. -/
def cleanCalls {H M : Type} (calls : List (Call H M)) : Nat :=
  (calls.filter (fun c => match c with
    | Call.clean _ => true
    | Call.handleLog _ _ => false)).length

/-! ## The service (`LogService`) -/

/-- Object behind a `LogHandler *` in the handler list of a service: the service
itself (it registers `this` in its constructor), or a handler supplied by the
embedding program, identified by its address, whose `handleLog` reads the record
and returns (`capture`) or raises (`faulty`). -/
inductive LogHandler where
  | service
  | capture (addr : Nat)
  | faulty (addr : Nat)
deriving DecidableEq, Repr

/-- State of the program around one `LogService`: the live `logger` objects, the
members `pool_`, `handlers` and `loggedlevel_` of the service, the two standard
streams, and the log of `handleLog` calls received by handlers (handler and the
record as it was at the call). -/
structure World where
  heap : StdMap Ptr logger
  pool_ : StdMap ks_thread_id (StdMap LogLevel Ptr)
  handlers : List LogHandler
  loggedlevel_ : LogLevel
  cout : ostream
  cerr : ostream
  delivered : List (LogHandler × logger)
deriving DecidableEq, Repr

/-- Pointer pooled under `(id, level)`, if any. -/
def World.pooled (w : World) (id : ks_thread_id) (level : LogLevel) : Option Ptr :=
  match w.pool_.find id with
  | none => none
  | some tlogger => tlogger.find level

/-- Constructor `LogService::LogService()`: level `Info`, empty pool, `addHandler(this)`. -/
def LogService.init (cout cerr : ostream) : World :=
  { heap := [], pool_ := [], handlers := LogHandlerManager.addHandler [] LogHandler.service,
    loggedlevel_ := LogLevel.Info, cout := cout, cerr := cerr, delivered := [] }

/-- Method `LogHandler::seLoggedLevel`. -/
def LogHandler.seLoggedLevel (level : LogLevel) (w : World) : World :=
  { w with loggedlevel_ := level }

/-- Method `LogService::writeTitle`. -/
def LogService.writeTitle (out : ostream) (title : String) : ostream :=
  if title.length > 0 then (out.put title).put ": " else out

/-- Method `LogService::writeContent`. -/
def LogService.writeContent (out : ostream) (text : String) : ostream :=
  let out1 := out.put text
  if string_endswith text '\n' then out1.flush else out1

/-- Method `LogService::handleLog`. -/
def LogService.handleLog (msg : Ptr) (w : World) : Outcome World Unit :=
  match w.heap.find msg with
  | none => .fail .undefined_behaviour w
  | some m =>
    if m.level_.toNat ≥ w.loggedlevel_.toNat then
      if m.level_.toNat ≥ LogLevel.Warning.toNat then
        .ok () { w with cerr :=
          LogService.writeContent (LogService.writeTitle (w.cerr.put "***") m.title_) m.buf_ }
      else
        .ok () { w with cout :=
          LogService.writeContent (LogService.writeTitle w.cout m.title_) m.buf_ }
    else .ok () w

/-- Virtual call `h->handleLog(msg)` for a handler in the list of the service. -/
def World.handleLog (h : LogHandler) (msg : Ptr) (w : World) : Outcome World Unit :=
  match w.heap.find msg with
  | none => .fail .undefined_behaviour w
  | some m =>
    let w1 := { w with delivered := w.delivered ++ [(h, m)] }
    match h with
    | .service => LogService.handleLog msg w1
    | .capture _ => .ok () w1
    | .faulty a => .fail (.handler_failure a) w1

/-- What `LogService::clean(logger *)` throws. -/
def cleanError : Fault :=
  .runtime_error "clean() got a logger that LogService does not manage"

/-- Method `LogService::clean(logger *msg)`. -/
def LogService.clean (msg : Ptr) (w : World) : Outcome World Unit :=
  match w.heap.find msg with
  | none => .fail .undefined_behaviour w
  | some m =>
    if hasKeyInMap m.thread_ w.pool_ then
      let tlogger := (w.pool_.find m.thread_).getD []
      if hasKeyInMap m.level_ tlogger then
        match (tlogger.find m.level_).bind w.heap.find with
        | none => .fail .undefined_behaviour w
        | some pooled =>
          if m.title_ = pooled.title_ then
            .ok () { w with
              pool_ := w.pool_.assign m.thread_ (tlogger.erase m.level_),
              heap := w.heap.erase msg }
          else .fail cleanError w
      else .fail cleanError w
    else .fail cleanError w

/-- Method `LogService::dispatch` (inherited from `LogHandlerManager`). -/
def LogService.dispatch (msg : Ptr) (w : World) : Outcome World Unit :=
  LogHandlerManager.dispatch World.handleLog LogService.clean w.handlers msg w

/-- Tail of `LogService::get`: `new logger(id, title, level, autoflush)` at address
`newlogger`, then `pool_[id][level] = newlogger`. -/
def LogService.create (newlogger : Ptr) (id : ks_thread_id) (title : String) (level : LogLevel)
    (autoflush : Bool) (w : World) : Outcome World Ptr :=
  .ok newlogger { w with
    heap := w.heap.assign newlogger (logger.mk_new id title level autoflush),
    pool_ := w.pool_.assign id (((w.pool_.find id).getD []).assign level newlogger) }

/-- Method `LogService::get`; `newlogger` is the address `new` returns if it is reached. -/
def LogService.get (newlogger : Ptr) (id : ks_thread_id) (title : String) (level : LogLevel)
    (autoflush : Bool) (w : World) : Outcome World Ptr :=
  let w1 := if (w.pool_.find id).isNone then { w with pool_ := w.pool_.assign id [] } else w
  let tlogger := (w1.pool_.find id).getD []
  if hasKeyInMap level tlogger then
    match tlogger.find level with
    | none => .fail .undefined_behaviour w1
    | some p =>
      if title.length = 0 then .ok p w1
      else
        match w1.heap.find p with
        | none => .fail .undefined_behaviour w1
        | some r =>
          if r.title_ = title then .ok p w1
          else
            match LogService.dispatch p w1 with
            | .ok _ w2 => LogService.create newlogger id title level autoflush w2
            | .fail e w2 => .fail e w2
  else LogService.create newlogger id title level autoflush w1

/-- Generic `operator<<(logger &, const T &)`: `loggerobj.buffer() << val`, where
`val` is the text the value formats to. -/
def logger.append (loggerobj : Ptr) (val : String) (w : World) : Outcome World Unit :=
  match w.heap.find loggerobj with
  | none => .fail .undefined_behaviour w
  | some m => .ok () { w with heap := w.heap.assign loggerobj { m with buf_ := m.buf_ ++ val } }

end ks

/-! ## Sample states -/

namespace ks

/-- A service pooling one record (address 10, thread 1, `Info`, title "t", text "abc"),
with the service and one capturing handler registered. -/
def sampleWorld : World :=
  { heap := [(10, ⟨1, "t", LogLevel.Info, true, "abc"⟩)],
    pool_ := [(1, [(LogLevel.Info, 10)])],
    handlers := [LogHandler.service, LogHandler.capture 7],
    loggedlevel_ := LogLevel.Info, cout := ⟨"", 0⟩, cerr := ⟨"", 0⟩, delivered := [] }

/-- The state `sampleWorld` with a second live record at address 20 that no pool entry
refers to and that carries the same thread, severity and title as the pooled one. -/
def foreignWorld : World :=
  { sampleWorld with
    heap := [(10, ⟨1, "t", LogLevel.Info, true, "abc"⟩), (20, ⟨1, "t", LogLevel.Info, true, "zzz"⟩)] }

end ks

/-! ## Sample handler behaviours -/

namespace ks

/-- A `handleLog` over a stateless world in which handler 1 raises and every other
handler returns. -/
def sampleHandleLog : Nat → Nat → Unit → Outcome Unit Unit :=
  fun h _ s => if h = 1 then Outcome.fail (Fault.handler_failure h) s else Outcome.ok () s

/-- A `clean` over a stateless world that always returns. -/
def sampleClean : Nat → Unit → Outcome Unit Unit :=
  fun _ s => Outcome.ok () s

end ks

/-! ## Rendering, stated from the output convention -/

namespace ks

/-- Title part of a rendered record: the title followed by a colon and a blank, and
nothing for an empty title. -/
def titleText (title : String) : String :=
  if title = "" then "" else title ++ ": "

/-- One flush when the text is non-empty and its last character is the line
terminator, none otherwise. -/
def flushCount (text : String) : Nat :=
  if text ≠ "" ∧ text.data.getLast? = some '\n' then 1 else 0

/-- The state `sampleWorld` with the minimum level set to `Warning`. -/
def warningWorld : World :=
  LogHandler.seLoggedLevel LogLevel.Warning sampleWorld

/-- A service holding one live `Error` record at address 10 whose text ends with the
line terminator. -/
def newlineWorld : World :=
  { sampleWorld with heap := [(10, ⟨1, "t", LogLevel.Error, true, "abc\n"⟩)] }

end ks

/-! ## Container-draining templates of `utils.h` -/

namespace ks

/-- The calls `finalize(instance, x)` made, in order, for the elements of `xs`; the
loop stops at the first call that does not return. -/
def finalizeEach {σ V : Type} (finalize : V → σ → Outcome σ Unit) : List V → σ → Outcome σ Unit
  | [], s => .ok () s
  | x :: rest, s =>
    match finalize x s with
    | .ok _ s1 => finalizeEach finalize rest s1
    | .fail e s1 => .fail e s1

/-- Second loop of `clear_byvalue` over the collected `keys`/`values` arrays: calls
`finalize_element(instance, values[idx])` and, if `erase_key`, erases the key from
`mapobj`, which is the by-value copy local to the template. -/
def clear_byvalue.loop {σ K V : Type} [DecidableEq K] (finalize_element : V → σ → Outcome σ Unit)
    (erase_key : Bool) : List (K × V) → StdMap K V → σ → Outcome σ Unit
  | [], _, s => .ok () s
  | (k, v) :: rest, mapobj, s =>
    match finalize_element v s with
    | .ok _ s1 =>
      clear_byvalue.loop finalize_element erase_key rest
        (if erase_key then mapobj.erase k else mapobj) s1
    | .fail e s1 => .fail e s1

/-- Template `clear_byvalue(instance, mapobj, finalize_element, erase_key)`; `mapobj` is
passed by value, `instance` is the state. -/
def clear_byvalue {σ K V : Type} [DecidableEq K] (mapobj : StdMap K V)
    (finalize_element : V → σ → Outcome σ Unit) (erase_key : Bool) (s : σ) : Outcome σ Unit :=
  clear_byvalue.loop finalize_element erase_key mapobj mapobj s

/-- Second loop of `clear_bykey` over the collected `keys` array. -/
def clear_bykey.loop {σ K V : Type} [DecidableEq K] (finalize_element : K → σ → Outcome σ Unit)
    (erase_key : Bool) : List K → StdMap K V → σ → Outcome σ Unit
  | [], _, s => .ok () s
  | k :: rest, mapobj, s =>
    match finalize_element k s with
    | .ok _ s1 =>
      clear_bykey.loop finalize_element erase_key rest
        (if erase_key then mapobj.erase k else mapobj) s1
    | .fail e s1 => .fail e s1

/-- Template `clear_bykey(instance, mapobj, finalize_element, erase_key)`; `mapobj` is
passed by value. -/
def clear_bykey {σ K V : Type} [DecidableEq K] (mapobj : StdMap K V)
    (finalize_element : K → σ → Outcome σ Unit) (erase_key : Bool) (s : σ) : Outcome σ Unit :=
  clear_bykey.loop finalize_element erase_key (mapobj.map Prod.fst) mapobj s

/-- Template `clear_vector(instance, v, finalize)`: `finalize(instance, val)` for each
element of the by-value copy `v`, then `v.clear()` on that copy. -/
def clear_vector {σ V : Type} (v : List V) (finalize : V → σ → Outcome σ Unit) (s : σ) :
    Outcome σ Unit :=
  finalizeEach finalize v s

end ks

/-! ## Directives and the remaining `LogService` methods -/

namespace ks

/-- Method `logger::dispatch()`: `service_.dispatch(this)`. -/
def logger.dispatch (self : Ptr) (w : World) : Outcome World Unit :=
  LogService.dispatch self w

/-- Specialisation `operator<<(logger &, const LogMeta &)`. -/
def logger.append_meta (loggerobj : Ptr) (val : LogMeta) (w : World) : Outcome World Unit :=
  if val = LogMeta.endl then
    match w.heap.find loggerobj with
    | none => .fail .undefined_behaviour w
    | some m =>
      let w1 := { w with heap := w.heap.assign loggerobj { m with buf_ := m.buf_ ++ "\n" } }
      if m.autoflush_ = true then logger.dispatch loggerobj w1 else .ok () w1
  else if val = LogMeta.flush then logger.dispatch loggerobj w
  else .ok () w

/-- Method `LogService::clean(ks_thread_id id)`. -/
def LogService.clean_thread (id : ks_thread_id) (w : World) : Outcome World Unit :=
  if hasKeyInMap id w.pool_ then
    match clear_byvalue ((w.pool_.find id).getD []) LogService.dispatch false w with
    | .ok _ w1 => .ok () { w1 with pool_ := w1.pool_.erase id }
    | .fail e w1 => .fail e w1
  else .ok () w

/-- Method `LogService::clean()`: `clear_bykey(this, pool_, LogService::clean, false)`. -/
def LogService.clean_all (w : World) : Outcome World Unit :=
  clear_bykey w.pool_ LogService.clean_thread false w

/-- Destructor `LogService::~LogService()`: `removeHandler(this); clean();`. -/
def LogService.destroy (w : World) : Outcome World Unit :=
  match LogHandlerManager.removeHandler w.handlers LogHandler.service with
  | .ok _ hs => LogService.clean_all { w with handlers := hs }
  | .fail e _ => .fail e w

end ks

/-! ## The buffering handler (`LogPool`) -/

namespace ks

/-- Members of `class LogPool`: `registered_`, the inherited `handlers` (its own
downstream registry) and the queue `logs_`. -/
structure LogPool where
  registered_ : Bool
  handlers : List LogHandler
  logs_ : List Ptr
deriving DecidableEq, Repr

/-- State around one `LogPool`: the surrounding `World` (live records, streams, log of
deliveries), the pool itself, and how often the callbacks `reg_` and `unreg_` have been
called with this handler.  The callbacks are function pointers given by the caller;
what they do to their target lies outside this state. -/
structure PoolWorld where
  world : World
  pool : LogPool
  regCalls : Nat
  unregCalls : Nat
deriving DecidableEq, Repr

/-- Constructor `LogPool::LogPool(addService, removeService)`: empty registry and queue,
`reg_(this)`, `registered_ = true`. -/
def LogPool.construct (w : World) : PoolWorld :=
  { world := w, pool := { registered_ := true, handlers := [], logs_ := [] },
    regCalls := 1, unregCalls := 0 }

/-- Method `LogPool::unregister()`. -/
def LogPool.unregister (pw : PoolWorld) : PoolWorld :=
  if pw.pool.registered_ = true then
    { pw with unregCalls := pw.unregCalls + 1, pool := { pw.pool with registered_ := false } }
  else pw

/-- Destructor `LogPool::~LogPool()`: `unregister()`. -/
def LogPool.destroy (pw : PoolWorld) : PoolWorld :=
  LogPool.unregister pw

/-- Method `LogPool::handleLog(msg)`; `copy` is the address `new` returns. -/
def LogPool.handleLog (copy : Ptr) (msg : Ptr) (pw : PoolWorld) : Outcome PoolWorld Unit :=
  match pw.world.heap.find msg with
  | none => .fail .undefined_behaviour pw
  | some m =>
    .ok () { pw with
      world := { pw.world with
        heap := pw.world.heap.assign copy (logger.mk_new m.thread_ m.title_ m.level_ m.autoflush_) },
      pool := { pw.pool with logs_ := pw.pool.logs_ ++ [copy] } }

/-- Virtual call `h->handleLog(msg)` for a handler in the registry of the pool. -/
def PoolWorld.handleLog (h : LogHandler) (msg : Ptr) (pw : PoolWorld) : Outcome PoolWorld Unit :=
  match World.handleLog h msg pw.world with
  | .ok _ w1 => .ok () { pw with world := w1 }
  | .fail e w1 => .fail e { pw with world := w1 }

/-- Method `LogPool::clean(msg)`: erase `msg` from `logs_` and delete it, if it is there. -/
def LogPool.clean (msg : Ptr) (pw : PoolWorld) : Outcome PoolWorld Unit :=
  if std_find msg pw.pool.logs_ ≠ pw.pool.logs_.length then
    match vector_erase pw.pool.logs_ (std_find msg pw.pool.logs_) with
    | some v =>
      .ok () { pw with
        world := { pw.world with heap := pw.world.heap.erase msg },
        pool := { pw.pool with logs_ := v } }
    | none => .fail .undefined_behaviour pw
  else .ok () pw

/-- Method `LogPool::dispatch` (inherited from `LogHandlerManager`). -/
def LogPool.dispatch (msg : Ptr) (pw : PoolWorld) : Outcome PoolWorld Unit :=
  LogHandlerManager.dispatch PoolWorld.handleLog LogPool.clean pw.pool.handlers msg pw

/-- Method `LogPool::dispatchAll(unregister)`. -/
def LogPool.dispatchAll (unregister : Bool) (pw : PoolWorld) : Outcome PoolWorld Unit :=
  match clear_vector pw.pool.logs_ LogPool.dispatch pw with
  | .ok _ pw1 => .ok () (if unregister = true then LogPool.unregister pw1 else pw1)
  | .fail e pw1 => .fail e pw1

/-- Method `LogHandlerManager::addHandler` on the registry of the pool. -/
def LogPool.addHandler (handler : LogHandler) (pw : PoolWorld) : PoolWorld :=
  { pw with pool := { pw.pool with
      handlers := LogHandlerManager.addHandler pw.pool.handlers handler } }

end ks

/-! ## `nanotimer` of `timing.h` / `timing.cpp` -/

namespace ks

/-- Constant `NSEC_IN_SEC = 1000000000ULL`. -/
def NSEC_IN_SEC : Nat := 1000000000

/-- Fields of `struct timespec` (`time_t tv_sec; long tv_nsec`). -/
structure timespec where
  tv_sec : Int
  tv_nsec : Int
deriving DecidableEq, Repr

/-- Method `nanotimer::set_interval(uint64_t value)` (POSIX branch): the value stored in
`spec_`. -/
def nanotimer.set_interval (value : Nat) : timespec :=
  if value > NSEC_IN_SEC then
    { tv_sec := ((value / NSEC_IN_SEC : Nat) : Int), tv_nsec := ((value % NSEC_IN_SEC : Nat) : Int) }
  else
    { tv_sec := 0, tv_nsec := (value : Int) }

/-- An interval that `nanosleep` accepts: `tv_sec` not negative and `tv_nsec` in
`[0, 999999999]`. -/
def timespec.normalised (t : timespec) : Prop :=
  0 ≤ t.tv_sec ∧ 0 ≤ t.tv_nsec ∧ t.tv_nsec < 1000000000

instance (t : timespec) : Decidable t.normalised := by
  unfold timespec.normalised
  exact inferInstance

/-- Length of an interval in nanoseconds. -/
def timespec.nanoseconds (t : timespec) : Int :=
  t.tv_sec * 1000000000 + t.tv_nsec

end ks

/-! ## Sequences of operations, invariants and expected deliveries -/

namespace ks

/-- Deliveries expected when the records at the addresses `ps`, as found in `heap`, are
handed one after the other to every handler of `handlers` in list order. -/
def deliveries (handlers : List LogHandler) (heap : StdMap Ptr logger) :
    List Ptr → List (LogHandler × logger)
  | [] => []
  | p :: rest =>
    (match heap.find p with
      | some r => handlers.map (fun h => (h, r))
      | none => []) ++ deliveries handlers heap rest

/-- The queue of a `LogPool` holds pairwise different addresses of live records. -/
def LogPool.QueueOk (pw : PoolWorld) : Prop :=
  pw.pool.logs_.Nodup ∧ ∀ p ∈ pw.pool.logs_, (pw.world.heap.find p).isSome = true

/-- Calls a client can make on a `LogPool` after constructing it. -/
inductive LogPool.Op where
  | handleLog (copy : Ptr) (msg : Ptr)
  | dispatchAll (unregister : Bool)
  | addHandler (handler : LogHandler)
  | destroy
deriving DecidableEq, Repr

/-- State after one call, whether it returned or stopped. -/
def LogPool.step (op : LogPool.Op) (pw : PoolWorld) : PoolWorld :=
  match op with
  | .handleLog copy msg => (LogPool.handleLog copy msg pw).state
  | .dispatchAll unregister => (LogPool.dispatchAll unregister pw).state
  | .addHandler handler => LogPool.addHandler handler pw
  | .destroy => LogPool.destroy pw

/-- State after a sequence of calls. -/
def LogPool.run : List LogPool.Op → PoolWorld → PoolWorld
  | [], pw => pw
  | op :: rest, pw => LogPool.run rest (LogPool.step op pw)

/-- Every pooled address is that of a live record whose own thread and severity are the
key it is pooled under. -/
def PoolInv (w : World) : Prop :=
  ∀ (id : ks_thread_id) (level : LogLevel) (p : Ptr), w.pooled id level = some p →
    ∃ r : logger, w.heap.find p = some r ∧ r.thread_ = id ∧ r.level_ = level

/-- The entries of a `std::map` are in strictly ascending key order. -/
def StdMap.Ordered {K V : Type} [KeyRank K] (m : StdMap K V) : Prop :=
  List.Pairwise (fun a b => KeyRank.rank a.1 < KeyRank.rank b.1) m

/-- Both levels of the pool are well-formed maps: the thread map and every inner
severity map are in strictly ascending key order. -/
def PoolOrdered (w : World) : Prop :=
  StdMap.Ordered w.pool_ ∧ ∀ e ∈ w.pool_, StdMap.Ordered e.2

/-- The address handed out by `new` in `get` is not that of a live record, except that
it may be the address of the record `get` evicts under the same key. -/
def AllocFresh (newlogger : Ptr) (id : ks_thread_id) (level : LogLevel) (w : World) : Prop :=
  w.heap.find newlogger = none ∨ w.pooled id level = some newlogger

/-- States of a service reachable from its construction by `get`, `dispatch` of a pooled
record, `clean(thread_id)`, `clean()` and handler registration; a call that stops
leaves the state it reached. -/
inductive Reachable : World → Prop where
  | init (cout cerr : ostream) : Reachable (LogService.init cout cerr)
  | get (w : World) (newlogger : Ptr) (id : ks_thread_id) (title : String) (level : LogLevel)
      (autoflush : Bool) : Reachable w → AllocFresh newlogger id level w →
      Reachable (LogService.get newlogger id title level autoflush w).state
  | dispatch (w : World) (id : ks_thread_id) (level : LogLevel) (p : Ptr) : Reachable w →
      w.pooled id level = some p → Reachable (LogService.dispatch p w).state
  | clean_thread (w : World) (id : ks_thread_id) : Reachable w →
      Reachable (LogService.clean_thread id w).state
  | clean_all (w : World) : Reachable w → Reachable (LogService.clean_all w).state
  | addHandler (w : World) (h : LogHandler) : Reachable w →
      Reachable { w with handlers := LogHandlerManager.addHandler w.handlers h }

/-- The state of a freshly constructed service after one `get` for thread 1 at `Info`
with the title "t", the record being created at address 10. -/
def firstGetWorld : World :=
  (LogService.get 10 1 "t" LogLevel.Info true (LogService.init ⟨"", 0⟩ ⟨"", 0⟩)).state

/-- A pool constructed over `sampleWorld` with one capturing downstream handler. -/
def samplePool : PoolWorld :=
  LogPool.addHandler (LogHandler.capture 8) (LogPool.construct sampleWorld)

/-- The pool `samplePool` after it captured the record at address 10 twice, the clones
being created at addresses 50 and 51. -/
def capturedPool : PoolWorld :=
  LogPool.run [LogPool.Op.handleLog 50 10, LogPool.Op.handleLog 51 10] samplePool

/-- Registration state of a pool: the flag and the numbers of `reg_` and `unreg_` calls. -/
def LogPool.regState (pw : PoolWorld) : Bool × Nat × Nat :=
  (pw.pool.registered_, pw.regCalls, pw.unregCalls)

/-- A service with only itself registered, pooling the auto-flushing record of
`sampleWorld`. -/
def consoleWorld : World :=
  { sampleWorld with handlers := [LogHandler.service] }

/-- The state `sampleWorld` with a second record pooled for thread 1 (address 11,
`Error`) and one pooled for thread 2 (address 12, `Info`). -/
def threadsWorld : World :=
  { sampleWorld with
    heap := [(10, ⟨1, "t", LogLevel.Info, true, "abc"⟩), (11, ⟨1, "e", LogLevel.Error, true, "bad"⟩),
             (12, ⟨2, "u", LogLevel.Info, false, "xyz"⟩)],
    pool_ := [(1, [(LogLevel.Info, 10), (LogLevel.Error, 11)]), (2, [(LogLevel.Info, 12)])] }

end ks

/-! ## `Condition::wait` of `thread.h` / `thread.cpp` -/

namespace ks

/-- Constant `const long million = 1000000`. -/
def million : Int := 1000000

/-- Constant `const long billion = 1000000000`. -/
def billion : Int := 1000000000

/-- Whether a value fits the 64-bit signed type `long`. -/
def in_long (x : Int) : Bool :=
  decide (-9223372036854775808 ≤ x ∧ x ≤ 9223372036854775807)

/-- The `struct timespec timeout` that `Condition::wait` fills for `timeout_msec >= 0`,
with `now` the value of `time(0)`:
`tv_nsec = (timeout_msec * million) % billion`,
`tv_sec = time(0) + (timeout_msec - tv_nsec)`.
The arithmetic is that of `long`; `none` stands for a signed overflow. -/
def Condition.deadline (timeout_msec now : Int) : Option timespec :=
  if in_long (timeout_msec * million) then
    if in_long (now + (timeout_msec - Int.tmod (timeout_msec * million) billion)) then
      some { tv_nsec := Int.tmod (timeout_msec * million) billion,
             tv_sec := now + (timeout_msec - Int.tmod (timeout_msec * million) billion) }
    else none
  else none

/-- Method `Condition::wait(long timeout_msec)`, POSIX branch.  The environment is given
by `now` (the value of `time(0)`), `cond_wait` (what `pthread_cond_wait` returns),
`cond_timedwait` (what `pthread_cond_timedwait` returns for a deadline) and `what`
(the text of `strerror(errno)`).  The message the error path also sends to the logger
is left out. -/
def Condition.wait (timeout_msec now : Int) (cond_wait : Int) (cond_timedwait : timespec → Int)
    (what : String) : Outcome Unit Bool :=
  if timeout_msec < 0 then
    if cond_wait ≠ 0 then .fail (.runtime_error what) ()
    else .ok (decide (cond_wait = 0)) ()
  else
    match Condition.deadline timeout_msec now with
    | none => .fail .undefined_behaviour ()
    | some timeout =>
      if cond_timedwait timeout ≠ 0 then .fail (.runtime_error what) ()
      else .ok (decide (cond_timedwait timeout = 0)) ()

/-- Method `Condition::wait`, `_WIN32` branch: `sleep_result` is what
`SleepConditionVariableCS` returns (zero when the wait timed out or failed). -/
def Condition.wait_win32 (sleep_result : Int) : Bool :=
  decide (sleep_result ≠ 0)

/-- Error number `ETIMEDOUT` of `errno.h` as on Linux; `pthread_cond_timedwait` returns
it when the deadline passes without a signal. -/
def ETIMEDOUT : Int := 110

/-- Deadline "now plus `timeout_msec` milliseconds" as a normalised `timespec`:
whole seconds added to `now`, the remaining milliseconds as nanoseconds. -/
def deadlineAfter (timeout_msec now : Int) : timespec :=
  { tv_sec := now + timeout_msec / 1000, tv_nsec := (timeout_msec % 1000) * 1000000 }

end ks

/-! ## Facts about `StdMap` -/

namespace ks

theorem StdMap.find_assign_same {K V : Type} [DecidableEq K] [KeyRank K] (k : K) (v : V)
    (m : StdMap K V) : StdMap.find k (StdMap.assign k v m) = some v := by
  induction m with
  | nil => simp [StdMap.assign, StdMap.find]
  | cons e rest ih =>
    obtain ⟨k', v'⟩ := e
    by_cases h1 : k' = k
    · simp [StdMap.assign, StdMap.find, h1]
    · by_cases h2 : KeyRank.rank k < KeyRank.rank k'
      · simp [StdMap.assign, StdMap.find, h1, h2]
      · simp [StdMap.assign, StdMap.find, h1, h2, ih]

theorem StdMap.find_assign_other {K V : Type} [DecidableEq K] [KeyRank K] (k k2 : K) (v : V)
    (m : StdMap K V) (hne : k2 ≠ k) :
    StdMap.find k2 (StdMap.assign k v m) = StdMap.find k2 m := by
  have hne2 : ¬ k = k2 := fun h => hne h.symm
  induction m with
  | nil => simp [StdMap.assign, StdMap.find, hne2]
  | cons e rest ih =>
    obtain ⟨k', v'⟩ := e
    by_cases h1 : k' = k
    · subst h1
      simp [StdMap.assign, StdMap.find, hne2]
    · by_cases h2 : KeyRank.rank k < KeyRank.rank k'
      · simp [StdMap.assign, StdMap.find, h1, h2, hne2]
      · by_cases h3 : k' = k2
        · subst h3
          simp [StdMap.assign, StdMap.find, h1, h2]
        · simp [StdMap.assign, StdMap.find, h1, h2, h3, ih]

theorem StdMap.find_erase_same {K V : Type} [DecidableEq K] (k : K) (m : StdMap K V) :
    StdMap.find k (StdMap.erase k m) = none := by
  induction m with
  | nil => simp [StdMap.erase, StdMap.find]
  | cons e rest ih =>
    obtain ⟨k', v'⟩ := e
    by_cases h1 : k' = k
    · simpa [StdMap.erase, h1] using ih
    · simpa [StdMap.erase, StdMap.find, h1] using ih

theorem StdMap.find_erase_other {K V : Type} [DecidableEq K] (k k2 : K) (m : StdMap K V)
    (hne : k2 ≠ k) : StdMap.find k2 (StdMap.erase k m) = StdMap.find k2 m := by
  induction m with
  | nil => simp [StdMap.erase, StdMap.find]
  | cons e rest ih =>
    obtain ⟨k', v'⟩ := e
    have hne2 : ¬ k = k2 := fun h => hne h.symm
    by_cases h1 : k' = k
    · subst h1
      simpa [StdMap.erase, StdMap.find, hne2] using ih
    · by_cases h3 : k' = k2
      · subst h3
        simp [StdMap.erase, StdMap.find, h1]
      · simpa [StdMap.erase, StdMap.find, h1, h3] using ih

theorem hasKeyInMap_eq {K V : Type} [DecidableEq K] (k : K) (m : StdMap K V) :
    hasKeyInMap k m = (StdMap.find k m).isSome := by
  cases m with
  | nil => simp [hasKeyInMap, StdMap.empty, StdMap.find]
  | cons e rest => simp [hasKeyInMap, StdMap.empty]

theorem World.pooled_some {w : World} {id : ks_thread_id} {level : LogLevel} {p : Ptr}
    (h : w.pooled id level = some p) :
    ∃ tlogger, StdMap.find id w.pool_ = some tlogger ∧ StdMap.find level tlogger = some p := by
  unfold World.pooled at h
  cases hf : StdMap.find id w.pool_ with
  | none => simp [hf] at h
  | some tlogger => exact ⟨tlogger, rfl, by simpa [hf] using h⟩

end ks

/-! ## `LogService::get` -/

namespace ks

theorem LogService.get_hit (newlogger : Ptr) (id : ks_thread_id) (title : String)
    (level : LogLevel) (autoflush : Bool) (w : World) (p : Ptr) (r : logger)
    (hpool : w.pooled id level = some p) (hlive : StdMap.find p w.heap = some r)
    (htitle : title.length = 0 ∨ r.title_ = title) :
    LogService.get newlogger id title level autoflush w = Outcome.ok p w := by
  obtain ⟨tlogger, h1, h2⟩ := World.pooled_some hpool
  unfold LogService.get
  simp only [h1, Option.isNone_some, Bool.false_eq_true, if_false, Option.getD_some,
    hasKeyInMap_eq, h2, Option.isSome_some, if_true, hlive]
  rcases htitle with h | h
  · simp [h]
  · by_cases h0 : title.length = 0
    · simp [h0]
    · simp [h0, h]

theorem logger.append_ok (p : Ptr) (a : String) (w : World) (r : logger)
    (hlive : StdMap.find p w.heap = some r) :
    logger.append p a w =
      Outcome.ok () { w with heap := StdMap.assign p { r with buf_ := r.buf_ ++ a } w.heap } := by
  simp [logger.append, hlive]

/-- C1. Reuse by `LogService::get`: when a live record `r` at address `p` is pooled
under `(id, level)` and the requested title is empty or equals the title of `r`,
`get` returns `p` and leaves the whole state as it was (nothing is dispatched, the
pool and the record keep their contents), whatever `autoflush` and whatever address
an allocation would have produced.  Consequently, for two such calls each followed
by an append, the second call returns `p` again and the buffer of the record ends as
the old text followed by the first and then the second appended text, with the pool
and the delivery log unchanged and the title and auto-flush setting kept. -/
theorem LogService.get_reuses_pooled_record (newlogger : Ptr) (id : ks_thread_id)
    (title : String) (level : LogLevel) (autoflush : Bool) (w : World) (p : Ptr) (r : logger)
    (hpool : w.pooled id level = some p) (hlive : StdMap.find p w.heap = some r)
    (htitle : title.length = 0 ∨ r.title_ = title) :
    LogService.get newlogger id title level autoflush w = Outcome.ok p w ∧
    ∀ (a b title2 : String) (autoflush2 : Bool) (newlogger2 : Ptr),
      (title2.length = 0 ∨ r.title_ = title2) →
      ∃ w1 w2 : World,
        logger.append p a w = Outcome.ok () w1 ∧
        LogService.get newlogger2 id title2 level autoflush2 w1 = Outcome.ok p w1 ∧
        logger.append p b w1 = Outcome.ok () w2 ∧
        StdMap.find p w2.heap = some { r with buf_ := r.buf_ ++ a ++ b } ∧
        w2.pool_ = w.pool_ ∧ w2.delivered = w.delivered ∧
        w2.cout = w.cout ∧ w2.cerr = w.cerr := by
  refine ⟨LogService.get_hit newlogger id title level autoflush w p r hpool hlive htitle, ?_⟩
  intro a b title2 autoflush2 newlogger2 htitle2
  have hr1 : StdMap.find p (StdMap.assign p { r with buf_ := r.buf_ ++ a } w.heap) =
      some { r with buf_ := r.buf_ ++ a } := StdMap.find_assign_same _ _ _
  refine ⟨_, _, logger.append_ok p a w r hlive, ?_, logger.append_ok p b _ _ hr1, ?_, rfl, rfl,
    rfl, rfl⟩
  · exact LogService.get_hit newlogger2 id title2 level autoflush2 _ p _ hpool hr1 htitle2
  · simp [StdMap.find_assign_same]

/-- Witness for C1 on a service pooling the record at address 10 under thread 1, `Info`. -/
theorem LogService.get_reuses_pooled_record_witness :
    LogService.get 30 1 "" LogLevel.Info false
      { heap := [(10, ⟨1, "t", LogLevel.Info, true, "abc"⟩)],
        pool_ := [(1, [(LogLevel.Info, 10)])], handlers := [LogHandler.service],
        loggedlevel_ := LogLevel.Info, cout := ⟨"", 0⟩, cerr := ⟨"", 0⟩, delivered := [] } =
    Outcome.ok 10
      { heap := [(10, ⟨1, "t", LogLevel.Info, true, "abc"⟩)],
        pool_ := [(1, [(LogLevel.Info, 10)])], handlers := [LogHandler.service],
        loggedlevel_ := LogLevel.Info, cout := ⟨"", 0⟩, cerr := ⟨"", 0⟩, delivered := [] } :=
  (LogService.get_reuses_pooled_record 30 1 "" LogLevel.Info false
    { heap := [(10, ⟨1, "t", LogLevel.Info, true, "abc"⟩)],
      pool_ := [(1, [(LogLevel.Info, 10)])], handlers := [LogHandler.service],
      loggedlevel_ := LogLevel.Info, cout := ⟨"", 0⟩, cerr := ⟨"", 0⟩, delivered := [] }
    10 ⟨1, "t", LogLevel.Info, true, "abc"⟩ (by decide) (by decide) (Or.inl (by decide))).1

end ks

namespace ks

theorem World.handleLog_ok (h : LogHandler) (p : Ptr) (w : World) (r : logger)
    (hlive : StdMap.find p w.heap = some r) (hh : ∀ a, h ≠ LogHandler.faulty a) :
    ∃ w1 : World, World.handleLog h p w = Outcome.ok () w1 ∧ w1.heap = w.heap ∧
      w1.pool_ = w.pool_ ∧ w1.handlers = w.handlers ∧ w1.loggedlevel_ = w.loggedlevel_ ∧
      w1.delivered = w.delivered ++ [(h, r)] := by
  cases h with
  | service =>
    simp only [World.handleLog, hlive, LogService.handleLog]
    split_ifs <;> exact ⟨_, rfl, rfl, rfl, rfl, rfl, rfl⟩
  | capture a =>
    simp only [World.handleLog, hlive]
    exact ⟨_, rfl, rfl, rfl, rfl, rfl, rfl⟩
  | faulty a => exact absurd rfl (hh a)

theorem LogService.handlers_then_clean (hs : List LogHandler) (p : Ptr) (r : logger) :
    ∀ w : World, StdMap.find p w.heap = some r → (∀ h ∈ hs, ∀ a, h ≠ LogHandler.faulty a) →
    ∃ w1 : World,
      LogHandlerManager.dispatch World.handleLog LogService.clean hs p w = LogService.clean p w1 ∧
      w1.heap = w.heap ∧ w1.pool_ = w.pool_ ∧ w1.handlers = w.handlers ∧
      w1.loggedlevel_ = w.loggedlevel_ ∧
      w1.delivered = w.delivered ++ hs.map (fun h => (h, r)) := by
  induction hs with
  | nil =>
    intro w _ _
    exact ⟨w, rfl, rfl, rfl, rfl, rfl, by simp⟩
  | cons h rest ih =>
    intro w hlive hh
    obtain ⟨w1, e1, a1, a2, a3, a4, a5⟩ :=
      World.handleLog_ok h p w r hlive (hh h (List.mem_cons_self _ _))
    obtain ⟨w2, e2, b1, b2, b3, b4, b5⟩ :=
      ih w1 (by rw [a1]; exact hlive) (fun x hx => hh x (List.mem_cons_of_mem _ hx))
    refine ⟨w2, ?_, b1.trans a1, b2.trans a2, b3.trans a3, b4.trans a4, ?_⟩
    · simp only [LogHandlerManager.dispatch, e1]
      exact e2
    · rw [b5, a5]
      simp

theorem LogService.clean_owned (p : Ptr) (w : World) (r : logger) (tlogger : StdMap LogLevel Ptr)
    (hlive : StdMap.find p w.heap = some r)
    (h1 : StdMap.find r.thread_ w.pool_ = some tlogger)
    (h2 : StdMap.find r.level_ tlogger = some p) :
    LogService.clean p w = Outcome.ok ()
      { w with pool_ := StdMap.assign r.thread_ (StdMap.erase r.level_ tlogger) w.pool_,
               heap := StdMap.erase p w.heap } := by
  simp [LogService.clean, hlive, hasKeyInMap_eq, h1, h2]

theorem World.pooled_after_erase (w : World) (id : ks_thread_id) (level : LogLevel)
    (tlogger : StdMap LogLevel Ptr) (heap : StdMap Ptr logger) :
    World.pooled { w with pool_ := StdMap.assign id (StdMap.erase level tlogger) w.pool_,
                          heap := heap } id level = none := by
  simp [World.pooled, StdMap.find_assign_same, StdMap.find_erase_same]

end ks

namespace ks

theorem LogService.dispatch_owned (p : Ptr) (w : World) (r : logger)
    (hpool : w.pooled r.thread_ r.level_ = some p) (hlive : StdMap.find p w.heap = some r)
    (hh : ∀ h ∈ w.handlers, ∀ a, h ≠ LogHandler.faulty a) :
    ∃ w1 : World, LogService.dispatch p w = Outcome.ok () w1 ∧
      w1.delivered = w.delivered ++ w.handlers.map (fun h => (h, r)) ∧
      w1.pooled r.thread_ r.level_ = none ∧ StdMap.find p w1.heap = none ∧
      w1.handlers = w.handlers ∧ w1.loggedlevel_ = w.loggedlevel_ ∧
      (∀ id : ks_thread_id, id ≠ r.thread_ → StdMap.find id w1.pool_ = StdMap.find id w.pool_) := by
  obtain ⟨tlogger, h1, h2⟩ := World.pooled_some hpool
  obtain ⟨w0, e0, a1, a2, a3, a4, a5⟩ :=
    LogService.handlers_then_clean w.handlers p r w hlive hh
  have hc := LogService.clean_owned p w0 r tlogger (by rw [a1]; exact hlive)
    (by rw [a2]; exact h1) h2
  refine ⟨{ w0 with pool_ := StdMap.assign r.thread_ (StdMap.erase r.level_ tlogger) w0.pool_,
                     heap := StdMap.erase p w0.heap }, ?_, ?_, ?_, ?_, ?_, ?_, ?_⟩
  · unfold LogService.dispatch
    rw [e0, hc]
  · exact a5
  · exact World.pooled_after_erase w0 r.thread_ r.level_ tlogger _
  · exact StdMap.find_erase_same p w0.heap
  · exact a3
  · exact a4
  · intro id hid
    show StdMap.find id (StdMap.assign r.thread_ _ w0.pool_) = _
    rw [StdMap.find_assign_other _ _ _ _ hid, a2]

/-- C2. Title-change eviction by `LogService::get`: when a live record `r` at address
`p` is pooled under its own key `(id, level)`, the requested title is non-empty and
differs from the title of `r`, and the registered handlers return normally, `get`
first runs `dispatch(p)`, which delivers `r` (with its whole text) once per entry
of the handler list, in order, and whose cleanup leaves no record pooled under
`(id, level)` and releases `p`; only then is the replacement created from that state.
`get` returns the replacement, which is pooled under `(id, level)`, carries the
requested title and auto-flush setting, and has empty content; creating it delivers
nothing more. -/
theorem LogService.get_title_change_evicts (newlogger : Ptr) (id : ks_thread_id)
    (title : String) (level : LogLevel) (autoflush : Bool) (w : World) (p : Ptr) (r : logger)
    (hpool : w.pooled id level = some p) (hlive : StdMap.find p w.heap = some r)
    (hthread : r.thread_ = id) (hlevel : r.level_ = level)
    (hne : title.length ≠ 0) (hdiff : r.title_ ≠ title)
    (hh : ∀ h ∈ w.handlers, ∀ a, h ≠ LogHandler.faulty a) :
    ∃ w1 w2 : World,
      LogService.dispatch p w = Outcome.ok () w1 ∧
      w1.delivered = w.delivered ++ w.handlers.map (fun h => (h, r)) ∧
      w1.pooled id level = none ∧ StdMap.find p w1.heap = none ∧
      LogService.get newlogger id title level autoflush w =
        LogService.create newlogger id title level autoflush w1 ∧
      LogService.get newlogger id title level autoflush w = Outcome.ok newlogger w2 ∧
      w2.pooled id level = some newlogger ∧
      StdMap.find newlogger w2.heap = some (logger.mk_new id title level autoflush) ∧
      (logger.mk_new id title level autoflush).title_ = title ∧
      (logger.mk_new id title level autoflush).autoflush_ = autoflush ∧
      (logger.mk_new id title level autoflush).content = "" ∧
      w2.delivered = w1.delivered := by
  subst hthread
  subst hlevel
  obtain ⟨tlogger, h1, h2⟩ := World.pooled_some hpool
  obtain ⟨w1, e1, d1, d2, d3, _, _, _⟩ := LogService.dispatch_owned p w r hpool hlive hh
  have hget : LogService.get newlogger r.thread_ title r.level_ autoflush w =
      LogService.create newlogger r.thread_ title r.level_ autoflush w1 := by
    unfold LogService.get
    simp only [h1, Option.isNone_some, Bool.false_eq_true, if_false, Option.getD_some,
      hasKeyInMap_eq, h2, Option.isSome_some, if_true, hlive, hne, hdiff, e1]
  refine ⟨w1, _, e1, d1, d2, d3, hget, hget.trans rfl, ?_, ?_, rfl, rfl, rfl, rfl⟩
  · simp [World.pooled, StdMap.find_assign_same]
  · exact StdMap.find_assign_same _ _ _

/-- Witness for C2: on `sampleWorld`, asking thread 1 at `Info` for the title "u". -/
theorem LogService.get_title_change_evicts_witness :
    ∃ w1 w2 : World,
      LogService.dispatch 10 sampleWorld = Outcome.ok () w1 ∧
      w1.delivered = sampleWorld.delivered ++
        sampleWorld.handlers.map (fun h => (h, (⟨1, "t", LogLevel.Info, true, "abc"⟩ : logger))) ∧
      w1.pooled 1 LogLevel.Info = none ∧ StdMap.find 10 w1.heap = none ∧
      LogService.get 30 1 "u" LogLevel.Info false sampleWorld =
        LogService.create 30 1 "u" LogLevel.Info false w1 ∧
      LogService.get 30 1 "u" LogLevel.Info false sampleWorld = Outcome.ok 30 w2 ∧
      w2.pooled 1 LogLevel.Info = some 30 ∧
      StdMap.find 30 w2.heap = some (logger.mk_new 1 "u" LogLevel.Info false) ∧
      (logger.mk_new 1 "u" LogLevel.Info false).title_ = "u" ∧
      (logger.mk_new 1 "u" LogLevel.Info false).autoflush_ = false ∧
      (logger.mk_new 1 "u" LogLevel.Info false).content = "" ∧
      w2.delivered = w1.delivered :=
  LogService.get_title_change_evicts 30 1 "u" LogLevel.Info false sampleWorld 10
    ⟨1, "t", LogLevel.Info, true, "abc"⟩ (by decide) (by decide) rfl rfl (by decide) (by decide)
    (by
      intro h hmem a
      simp only [sampleWorld, List.mem_cons, List.mem_singleton, List.not_mem_nil, or_false] at hmem
      rcases hmem with rfl | rfl <;> simp)

end ks

/-! ## `LogService::clean(logger *)` -/

namespace ks

/-- C3. On `foreignWorld` the record at address 20 is live, is not the instance pooled
under its key (that is the record at address 10), and has the same thread, severity
and title as the pooled one.  `LogService::clean` compares titles only, so
`clean(20)` returns normally instead of signalling the error: it erases the pool
entry of the key, releases the record at address 20, and leaves the formerly pooled
record at address 10 live and unreferenced. -/
theorem LogService.clean_accepts_record_it_does_not_pool :
    foreignWorld.pooled 1 LogLevel.Info = some 10 ∧
    StdMap.find 20 foreignWorld.heap = some ⟨1, "t", LogLevel.Info, true, "zzz"⟩ ∧
    LogService.clean 20 foreignWorld = Outcome.ok ()
      { foreignWorld with
        pool_ := [(1, [])],
        heap := [(10, ⟨1, "t", LogLevel.Info, true, "abc"⟩)] } := by
  decide

theorem LogService.clean_key_not_pooled (q : Ptr) (w : World) (m : logger)
    (hlive : StdMap.find q w.heap = some m) (hnone : w.pooled m.thread_ m.level_ = none) :
    LogService.clean q w = Outcome.fail cleanError w := by
  unfold World.pooled at hnone
  cases hf : StdMap.find m.thread_ w.pool_ with
  | none => simp [LogService.clean, hlive, hasKeyInMap_eq, hf]
  | some tlogger =>
    rw [hf] at hnone
    have hnone2 : StdMap.find m.level_ tlogger = none := hnone
    simp [LogService.clean, hlive, hasKeyInMap_eq, hf, hnone2]

/-- C4 (as stated, refuted). On `sampleWorld` the first `clean(10)` succeeds and
releases the record, so the second `clean(10)` reads a record that is no longer live:
it stops as undefined behaviour and does not signal the consistency-violation error. -/
theorem LogService.second_clean_reads_released_record :
    ∃ w1 : World, LogService.clean 10 sampleWorld = Outcome.ok () w1 ∧
      StdMap.find 10 w1.heap = none ∧
      LogService.clean 10 w1 = Outcome.fail Fault.undefined_behaviour w1 ∧
      ¬ ∃ w2 : World, LogService.clean 10 w1 = Outcome.fail cleanError w2 :=
  ⟨{ sampleWorld with pool_ := [(1, [])], heap := [] }, by decide, by decide, by decide,
    by
      rintro ⟨w2, h2⟩
      have h3 : LogService.clean 10 { sampleWorld with pool_ := [(1, [])], heap := [] } =
          Outcome.fail Fault.undefined_behaviour
            { sampleWorld with pool_ := [(1, [])], heap := [] } := by decide
      rw [h3] at h2
      injection h2 with h4 _
      exact absurd h4 (by decide)⟩

/-- C4 (amended). When the live record `r` at address `p` is the one pooled under its
own key, `clean(p)` returns normally; afterwards nothing is pooled under that key,
the entry of every other key is as before, and `p` is released.  A second `clean(p)`
right afterwards does not succeed: it reads the released record, which is undefined.
Cleaning any live record that carries the key of `r` in that state signals the
consistency-violation error and changes nothing. -/
theorem LogService.clean_pooled_record_once (p : Ptr) (w : World) (r : logger)
    (hpool : w.pooled r.thread_ r.level_ = some p) (hlive : StdMap.find p w.heap = some r) :
    ∃ w1 : World, LogService.clean p w = Outcome.ok () w1 ∧
      w1.pooled r.thread_ r.level_ = none ∧
      (∀ (id : ks_thread_id) (level : LogLevel), (id, level) ≠ (r.thread_, r.level_) →
        w1.pooled id level = w.pooled id level) ∧
      StdMap.find p w1.heap = none ∧
      (∀ q : Ptr, q ≠ p → StdMap.find q w1.heap = StdMap.find q w.heap) ∧
      LogService.clean p w1 = Outcome.fail Fault.undefined_behaviour w1 ∧
      (∀ (q : Ptr) (m : logger), StdMap.find q w1.heap = some m → m.thread_ = r.thread_ →
        m.level_ = r.level_ → LogService.clean q w1 = Outcome.fail cleanError w1) := by
  obtain ⟨tlogger, h1, h2⟩ := World.pooled_some hpool
  have hnone := World.pooled_after_erase w r.thread_ r.level_ tlogger (StdMap.erase p w.heap)
  have hgone : StdMap.find p (StdMap.erase p w.heap) = none := StdMap.find_erase_same p w.heap
  refine ⟨_, LogService.clean_owned p w r tlogger hlive h1 h2, hnone, ?_, hgone, ?_, ?_, ?_⟩
  · intro id level hne
    by_cases hid : id = r.thread_
    · subst hid
      have hl : level ≠ r.level_ := fun h => hne (by rw [h])
      simp [World.pooled, StdMap.find_assign_same, StdMap.find_erase_other _ _ _ hl, h1]
    · simp [World.pooled, StdMap.find_assign_other _ _ _ _ hid]
  · intro q hq
    exact StdMap.find_erase_other p q w.heap hq
  · simp only [LogService.clean, hgone]
  · intro q m hq ht hl
    apply LogService.clean_key_not_pooled q _ m hq
    rw [ht, hl]
    exact hnone

/-- Witness for C4 (amended) on `sampleWorld` and its pooled record at address 10. -/
theorem LogService.clean_pooled_record_once_witness :
    ∃ w1 : World, LogService.clean 10 sampleWorld = Outcome.ok () w1 ∧
      w1.pooled 1 LogLevel.Info = none ∧
      (∀ (id : ks_thread_id) (level : LogLevel), (id, level) ≠ (1, LogLevel.Info) →
        w1.pooled id level = sampleWorld.pooled id level) ∧
      StdMap.find 10 w1.heap = none ∧
      (∀ q : Ptr, q ≠ 10 → StdMap.find q w1.heap = StdMap.find q sampleWorld.heap) ∧
      LogService.clean 10 w1 = Outcome.fail Fault.undefined_behaviour w1 ∧
      (∀ (q : Ptr) (m : logger), StdMap.find q w1.heap = some m → m.thread_ = 1 →
        m.level_ = LogLevel.Info → LogService.clean q w1 = Outcome.fail cleanError w1) :=
  LogService.clean_pooled_record_once 10 sampleWorld ⟨1, "t", LogLevel.Info, true, "abc"⟩
    (by decide) (by decide)

end ks

/-! ## `LogHandlerManager` -/

namespace ks

theorem LogHandlerManager.dispatch_calls_of_returning {σ H M : Type}
    (f : H → M → σ → Outcome σ Unit) (g : M → σ → Outcome σ Unit) (msg : M) (hs : List H) :
    ∀ (s : σ) (t : List (Call H M)), (∀ h ∈ hs, ∀ s0 : σ, (f h msg s0).returned = true) →
    (LogHandlerManager.dispatch (recordHandleLog f) (recordClean g) hs msg (s, t)).state.2 =
      t ++ hs.map (fun h => Call.handleLog h msg) ++ [Call.clean msg] := by
  induction hs with
  | nil =>
    intro s t _
    simp only [LogHandlerManager.dispatch, recordClean, List.map_nil, List.append_nil]
    cases g msg s <;> rfl
  | cons h rest ih =>
    intro s t hret
    have hh := hret h (List.mem_cons_self _ _) s
    simp only [LogHandlerManager.dispatch, recordHandleLog]
    cases hf : f h msg s with
    | ok v s1 =>
      simp only []
      rw [ih s1 _ (fun x hx => hret x (List.mem_cons_of_mem _ hx))]
      simp
    | fail e s1 =>
      rw [hf] at hh
      exact absurd hh (by simp [Outcome.returned])

theorem LogHandlerManager.dispatch_calls_of_failing {σ H M : Type}
    (f : H → M → σ → Outcome σ Unit) (g : M → σ → Outcome σ Unit) (msg : M) (h : H)
    (post : List H) (hfail : ∀ s0 : σ, (f h msg s0).returned = false) (pre : List H) :
    ∀ (s : σ) (t : List (Call H M)), (∀ x ∈ pre, ∀ s0 : σ, (f x msg s0).returned = true) →
    (LogHandlerManager.dispatch (recordHandleLog f) (recordClean g) (pre ++ h :: post) msg
        (s, t)).returned = false ∧
    (LogHandlerManager.dispatch (recordHandleLog f) (recordClean g) (pre ++ h :: post) msg
        (s, t)).state.2 = t ++ pre.map (fun x => Call.handleLog x msg) ++ [Call.handleLog h msg] := by
  induction pre with
  | nil =>
    intro s t _
    have hh := hfail s
    simp only [List.nil_append, LogHandlerManager.dispatch, recordHandleLog, List.map_nil,
      List.append_nil]
    cases hf : f h msg s with
    | ok v s1 =>
      rw [hf] at hh
      exact absurd hh (by simp [Outcome.returned])
    | fail e s1 => exact ⟨rfl, rfl⟩
  | cons x rest ih =>
    intro s t hret
    have hh := hret x (List.mem_cons_self _ _) s
    simp only [List.cons_append, LogHandlerManager.dispatch, recordHandleLog]
    cases hf : f x msg s with
    | ok v s1 =>
      simp only []
      have := ih s1 (t ++ [Call.handleLog x msg])
        (fun y hy => hret y (List.mem_cons_of_mem _ hy))
      simpa using this
    | fail e s1 =>
      rw [hf] at hh
      exact absurd hh (by simp [Outcome.returned])

theorem cleanCalls_append {H M : Type} (a b : List (Call H M)) :
    cleanCalls (a ++ b) = cleanCalls a + cleanCalls b := by
  simp [cleanCalls]

theorem cleanCalls_handleLog {H M : Type} (hs : List H) (msg : M) :
    cleanCalls (hs.map (fun h => Call.handleLog h msg)) = 0 := by
  induction hs with
  | nil => rfl
  | cons h rest ih => simp [cleanCalls]

/-- Recording the calls does not change what `dispatch` does to the state. -/
theorem LogHandlerManager.dispatch_recording_erases {σ H M : Type}
    (f : H → M → σ → Outcome σ Unit) (g : M → σ → Outcome σ Unit) (msg : M) (hs : List H) :
    ∀ (s : σ) (t : List (Call H M)),
    (LogHandlerManager.dispatch (recordHandleLog f) (recordClean g) hs msg (s, t)).state.1 =
      (LogHandlerManager.dispatch f g hs msg s).state ∧
    (LogHandlerManager.dispatch (recordHandleLog f) (recordClean g) hs msg (s, t)).returned =
      (LogHandlerManager.dispatch f g hs msg s).returned := by
  induction hs with
  | nil =>
    intro s t
    simp only [LogHandlerManager.dispatch, recordClean]
    cases g msg s <;> exact ⟨rfl, rfl⟩
  | cons h rest ih =>
    intro s t
    simp only [LogHandlerManager.dispatch, recordHandleLog]
    cases hf : f h msg s with
    | ok v s1 => exact ih s1 _
    | fail e s1 => exact ⟨rfl, rfl⟩

/-- C5. `LogHandlerManager::dispatch(msg)` over a handler list `hs` whose handlers
return normally makes exactly these calls, in this order: `handleLog(msg)` on each
entry of `hs` in list order (an entry present k times is called k times), then one
`clean(msg)` after all of them.  `addHandler` puts a handler at the end of that
order. -/
theorem LogHandlerManager.dispatch_calls_handlers_in_order_then_clean {σ H M : Type}
    (f : H → M → σ → Outcome σ Unit) (g : M → σ → Outcome σ Unit) (hs : List H) (msg : M)
    (s : σ) (t : List (Call H M)) (hret : ∀ h ∈ hs, ∀ s0 : σ, (f h msg s0).returned = true) :
    (LogHandlerManager.dispatch (recordHandleLog f) (recordClean g) hs msg (s, t)).state.2 =
      t ++ hs.map (fun h => Call.handleLog h msg) ++ [Call.clean msg] ∧
    cleanCalls (LogHandlerManager.dispatch (recordHandleLog f) (recordClean g) hs msg
      (s, t)).state.2 = cleanCalls t + 1 ∧
    ∀ h : H, (hret2 : ∀ s0 : σ, (f h msg s0).returned = true) →
      (LogHandlerManager.dispatch (recordHandleLog f) (recordClean g)
        (LogHandlerManager.addHandler hs h) msg (s, t)).state.2 =
      t ++ hs.map (fun x => Call.handleLog x msg) ++ [Call.handleLog h msg, Call.clean msg] := by
  have h1 := LogHandlerManager.dispatch_calls_of_returning f g msg hs s t hret
  refine ⟨h1, ?_, ?_⟩
  · rw [h1, cleanCalls_append, cleanCalls_append, cleanCalls_handleLog]
    rfl
  · intro h hret2
    have h2 := LogHandlerManager.dispatch_calls_of_returning f g msg
      (LogHandlerManager.addHandler hs h) s t (by
        intro x hx
        simp only [LogHandlerManager.addHandler, List.mem_append, List.mem_singleton] at hx
        rcases hx with hx | rfl
        · exact hret x hx
        · exact hret2)
    rw [h2]
    simp [LogHandlerManager.addHandler]

/-- Witness for C5: handlers 0, 2, 0 (handler 0 registered twice) and record 9. -/
theorem LogHandlerManager.dispatch_calls_handlers_in_order_then_clean_witness :
    (LogHandlerManager.dispatch (recordHandleLog sampleHandleLog) (recordClean sampleClean)
      [0, 2, 0] 9 ((), [])).state.2 =
      [] ++ [0, 2, 0].map (fun h => Call.handleLog h 9) ++ [Call.clean 9] :=
  (LogHandlerManager.dispatch_calls_handlers_in_order_then_clean sampleHandleLog sampleClean
    [0, 2, 0] 9 () [] (by
      intro h hmem s0
      simp only [List.mem_cons, List.mem_singleton, List.not_mem_nil, or_false] at hmem
      rcases hmem with rfl | rfl | rfl <;> rfl)).1

end ks

namespace ks

/-- C6 (as stated, refuted). With handlers 0 and 1 registered, where handler 1 raises,
`dispatch` of record 9 stops with the failure of handler 1 after calling both
handlers, and its call log holds no `clean` call at all, so it does not end with
exactly one cleanup. -/
theorem LogHandlerManager.dispatch_skips_clean_when_handler_fails :
    LogHandlerManager.dispatch (recordHandleLog sampleHandleLog) (recordClean sampleClean)
      [0, 1] 9 ((), []) =
      Outcome.fail (Fault.handler_failure 1) ((), [Call.handleLog 0 9, Call.handleLog 1 9]) ∧
    cleanCalls (LogHandlerManager.dispatch (recordHandleLog sampleHandleLog)
      (recordClean sampleClean) [0, 1] 9 ((), [])).state.2 ≠ 1 := by
  decide

/-- C6 (amended). For handlers `pre` that return normally: `dispatch` over `pre` ends
with exactly one `clean(msg)` call, made after all handlers.  If the list continues
with a handler `h` that raises, `dispatch` over `pre ++ h :: post` does not return:
it stops at `h`, having called the handlers of `pre` and `h` in order, none of
`post`, and it makes no `clean` call. -/
theorem LogHandlerManager.dispatch_clean_once_unless_handler_fails {σ H M : Type}
    (f : H → M → σ → Outcome σ Unit) (g : M → σ → Outcome σ Unit) (pre : List H) (h : H)
    (post : List H) (msg : M) (s : σ) (t : List (Call H M))
    (hpre : ∀ x ∈ pre, ∀ s0 : σ, (f x msg s0).returned = true)
    (hfail : ∀ s0 : σ, (f h msg s0).returned = false) :
    ((LogHandlerManager.dispatch (recordHandleLog f) (recordClean g) pre msg (s, t)).state.2 =
        t ++ pre.map (fun x => Call.handleLog x msg) ++ [Call.clean msg] ∧
      cleanCalls (LogHandlerManager.dispatch (recordHandleLog f) (recordClean g) pre msg
        (s, t)).state.2 = cleanCalls t + 1) ∧
    ((LogHandlerManager.dispatch (recordHandleLog f) (recordClean g) (pre ++ h :: post) msg
        (s, t)).returned = false ∧
      (LogHandlerManager.dispatch (recordHandleLog f) (recordClean g) (pre ++ h :: post) msg
        (s, t)).state.2 = t ++ pre.map (fun x => Call.handleLog x msg) ++ [Call.handleLog h msg] ∧
      cleanCalls (LogHandlerManager.dispatch (recordHandleLog f) (recordClean g)
        (pre ++ h :: post) msg (s, t)).state.2 = cleanCalls t ∧
      (LogHandlerManager.dispatch f g (pre ++ h :: post) msg s).returned = false) := by
  have h1 := LogHandlerManager.dispatch_calls_of_returning f g msg pre s t hpre
  have h2 := LogHandlerManager.dispatch_calls_of_failing f g msg h post hfail pre s t hpre
  have h3 := LogHandlerManager.dispatch_recording_erases f g msg (pre ++ h :: post) s t
  refine ⟨⟨h1, ?_⟩, h2.1, h2.2, ?_, ?_⟩
  · rw [h1, cleanCalls_append, cleanCalls_append, cleanCalls_handleLog]
    rfl
  · rw [h2.2, cleanCalls_append, cleanCalls_append, cleanCalls_handleLog]
    rfl
  · rw [← h3.2]
    exact h2.1

/-- Witness for C6 (amended): handler 0 returns, handler 1 raises, handler 2 follows. -/
theorem LogHandlerManager.dispatch_clean_once_unless_handler_fails_witness :
    cleanCalls (LogHandlerManager.dispatch (recordHandleLog sampleHandleLog)
      (recordClean sampleClean) [0] 9 ((), [])).state.2 = cleanCalls ([] : List (Call Nat Nat)) + 1 ∧
    cleanCalls (LogHandlerManager.dispatch (recordHandleLog sampleHandleLog)
      (recordClean sampleClean) ([0] ++ 1 :: [2]) 9 ((), [])).state.2 =
      cleanCalls ([] : List (Call Nat Nat)) :=
  have w := LogHandlerManager.dispatch_clean_once_unless_handler_fails sampleHandleLog
    sampleClean [0] 1 [2] 9 () [] (by
      intro x hmem s0
      simp only [List.mem_singleton] at hmem
      subst hmem
      rfl) (fun _ => rfl)
  ⟨w.1.2, w.2.2.2.1⟩

/-- C7. With only the service registered, `removeHandler` for a handler that is not in
the list passes `end()` to `vector::erase`, which is undefined: it is not a silent
no-op.  For a handler that is in the list the first matching entry is removed. -/
theorem LogHandlerManager.removeHandler_absent_is_undefined :
    LogHandlerManager.removeHandler [LogHandler.service] (LogHandler.capture 7) =
      Outcome.fail Fault.undefined_behaviour [LogHandler.service] ∧
    LogHandlerManager.removeHandler
      [LogHandler.service, LogHandler.capture 7, LogHandler.service] LogHandler.service =
      Outcome.ok () [LogHandler.capture 7, LogHandler.service] := by
  decide

theorem std_find_le {H : Type} [DecidableEq H] (x : H) (hs : List H) :
    std_find x hs ≤ hs.length := by
  induction hs with
  | nil => simp [std_find]
  | cons y rest ih =>
    by_cases h : y = x
    · simp [std_find, h]
    · simpa [std_find, h] using ih

theorem std_find_absent {H : Type} [DecidableEq H] (x : H) (hs : List H) (h : x ∉ hs) :
    std_find x hs = hs.length := by
  induction hs with
  | nil => simp [std_find]
  | cons y rest ih =>
    have hy : ¬ y = x := fun e => h (by simp [e])
    have hr : x ∉ rest := fun e => h (List.mem_cons_of_mem _ e)
    simp [std_find, hy, ih hr]

/-- For every handler that is not registered, `removeHandler` is undefined. -/
theorem LogHandlerManager.removeHandler_of_absent {H : Type} [DecidableEq H] (hs : List H)
    (x : H) (h : x ∉ hs) :
    LogHandlerManager.removeHandler hs x = Outcome.fail Fault.undefined_behaviour hs := by
  simp [LogHandlerManager.removeHandler, vector_erase, std_find_absent x hs h]

/-- For a registered handler `removeHandler` removes its first occurrence and keeps the
other entries in order. -/
theorem LogHandlerManager.removeHandler_of_present {H : Type} [DecidableEq H] (hs : List H)
    (x : H) (h : x ∈ hs) :
    LogHandlerManager.removeHandler hs x = Outcome.ok () (hs.erase x) := by
  induction hs with
  | nil => simp at h
  | cons y rest ih =>
    by_cases hy : y = x
    · subst hy
      simp [LogHandlerManager.removeHandler, vector_erase, std_find]
    · have hr : x ∈ rest := by
        rcases List.mem_cons.mp h with e | e
        · exact absurd e.symm hy
        · exact e
      have ih2 := ih hr
      simp only [LogHandlerManager.removeHandler, vector_erase] at ih2 ⊢
      by_cases hlt : std_find x rest < rest.length
      · simp only [hlt, if_true] at ih2
        have e2 : rest.eraseIdx (std_find x rest) = rest.erase x := by
          injection ih2 with _ e3
        simp [std_find, hy, hlt, e2, List.erase_cons]
      · simp [hlt] at ih2

end ks

/-! ## Rendering by `LogService::handleLog` -/

namespace ks

theorem string_length_zero_iff (s : String) : s.length = 0 ↔ s = "" := by
  constructor
  · intro h
    apply String.ext
    exact List.length_eq_zero.mp h
  · intro h
    subst h
    rfl

theorem findFrom_singleton (c a : Char) (i : Nat) :
    findFrom c [a] i = if a = c then i else npos := by
  simp [findFrom]

theorem string_endswith_empty (c : Char) : string_endswith "" c = false := by
  have h : ("" : String).data.drop ((("" : String).length + 2 ^ 64 - 1) % 2 ^ 64) = [] := by
    simp
  unfold string_endswith string_find
  rw [h]
  simp [findFrom]

theorem string_endswith_iff (text : String) (c : Char) (hlen : text.length < 2 ^ 64) :
    string_endswith text c = true ↔ text ≠ "" ∧ text.data.getLast? = some c := by
  rcases List.eq_nil_or_concat text.data with hnil | ⟨ys, a, hcat⟩
  on_goal 2 => rw [List.concat_eq_append] at hcat
  · have he : text = "" := String.ext hnil
    subst he
    simp [string_endswith_empty]
  · have hne : text ≠ "" := by
      intro he
      rw [he] at hcat
      simp at hcat
    have hl : text.length = ys.length + 1 := by
      show text.data.length = _
      rw [hcat]
      simp
    have hpos : (text.length + 2 ^ 64 - 1) % 2 ^ 64 = ys.length := by
      rw [hl] at hlen ⊢
      omega
    have hys : ys.length ≠ npos := by
      rw [hl] at hlen
      unfold npos
      omega
    unfold string_endswith string_find
    rw [hpos, hcat]
    rw [List.drop_left, findFrom_singleton]
    by_cases hac : a = c
    · simp [hac, hys, hne]
    · simp [hac, hne]

end ks

namespace ks

theorem LogService.writeTitle_text (out : ostream) (title : String) :
    (LogService.writeTitle out title).text = out.text ++ titleText title ∧
    (LogService.writeTitle out title).flushes = out.flushes := by
  by_cases h : title = ""
  · subst h
    simp [LogService.writeTitle, titleText]
  · have hl : title.length > 0 := by
      rcases Nat.eq_zero_or_pos title.length with h0 | h0
      · exact absurd ((string_length_zero_iff title).mp h0) h
      · exact h0
    simp [LogService.writeTitle, titleText, h, hl, ostream.put, String.append_assoc]

theorem LogService.writeContent_text (out : ostream) (text : String) :
    (LogService.writeContent out text).text = out.text ++ text := by
  by_cases h : string_endswith text '\n' = true
  · simp only [LogService.writeContent, h, if_true, ostream.flush, ostream.put]
  · simp only [LogService.writeContent, h, Bool.false_eq_true, if_false, ostream.put]

theorem LogService.writeContent_flushes (out : ostream) (text : String)
    (hlen : text.length < 2 ^ 64) :
    (LogService.writeContent out text).flushes = out.flushes + flushCount text := by
  by_cases h : string_endswith text '\n' = true
  · have h2 := (string_endswith_iff text '\n' hlen).mp h
    simp only [LogService.writeContent, flushCount, h, h2, if_true, ostream.flush, ostream.put,
      ne_eq, not_false_eq_true, and_self]
  · have h2 : ¬ (text ≠ "" ∧ text.data.getLast? = some '\n') :=
      fun e => h ((string_endswith_iff text '\n' hlen).mpr e)
    simp only [LogService.writeContent, flushCount, h, h2, Bool.false_eq_true, if_false,
      ostream.put, Nat.add_zero]

/-- C8. Severity filtering: for a live record whose severity is below the minimum level
of the service, `LogService::handleLog` returns with the state exactly as it was, so
nothing is written to the standard stream or to the error stream, whatever the title
and text of the record. -/
theorem LogService.handleLog_below_minimum_writes_nothing (msg : Ptr) (w : World) (m : logger)
    (hlive : StdMap.find msg w.heap = some m)
    (hlow : m.level_.toNat < w.loggedlevel_.toNat) :
    LogService.handleLog msg w = Outcome.ok () w ∧
    (LogService.handleLog msg w).state.cout = w.cout ∧
    (LogService.handleLog msg w).state.cerr = w.cerr := by
  have h : LogService.handleLog msg w = Outcome.ok () w := by
    have hn : ¬ m.level_.toNat ≥ w.loggedlevel_.toNat := by omega
    simp only [LogService.handleLog, hlive, hn, if_false]
  rw [h]
  exact ⟨rfl, rfl, rfl⟩

/-- Witness for C8: minimum level `Warning`, the pooled `Info` record of `warningWorld`. -/
theorem LogService.handleLog_below_minimum_writes_nothing_witness :
    LogService.handleLog 10 warningWorld = Outcome.ok () warningWorld ∧
    (LogService.handleLog 10 warningWorld).state.cout = warningWorld.cout ∧
    (LogService.handleLog 10 warningWorld).state.cerr = warningWorld.cerr :=
  LogService.handleLog_below_minimum_writes_nothing 10 warningWorld
    ⟨1, "t", LogLevel.Info, true, "abc"⟩ (by decide) (by decide)

/-- C9. Output rendering: for a live record at or above the minimum level,
`LogService::handleLog` returns and changes one stream only.  At `Warning` or above
the error stream gains the three asterisks, then the title part (title, colon, blank;
nothing for an empty title), then the body, and the standard stream is untouched.
Below `Warning` the standard stream gains the title part then the body, with no
asterisks, and the error stream is untouched.  Nothing else of the state changes. -/
theorem LogService.handleLog_renders_to_one_stream (msg : Ptr) (w : World) (m : logger)
    (hlive : StdMap.find msg w.heap = some m)
    (hpass : m.level_.toNat ≥ w.loggedlevel_.toNat) :
    ∃ w1 : World, LogService.handleLog msg w = Outcome.ok () w1 ∧
      (m.level_.toNat ≥ LogLevel.Warning.toNat →
        w1.cerr.text = w.cerr.text ++ "***" ++ titleText m.title_ ++ m.buf_ ∧ w1.cout = w.cout) ∧
      (m.level_.toNat < LogLevel.Warning.toNat →
        w1.cout.text = w.cout.text ++ titleText m.title_ ++ m.buf_ ∧ w1.cerr = w.cerr) ∧
      w1.heap = w.heap ∧ w1.pool_ = w.pool_ ∧ w1.handlers = w.handlers ∧
      w1.loggedlevel_ = w.loggedlevel_ ∧ w1.delivered = w.delivered := by
  by_cases hw : m.level_.toNat ≥ LogLevel.Warning.toNat
  · simp only [LogService.handleLog, hlive, hpass, hw, if_true]
    refine ⟨_, rfl, ?_, ?_, rfl, rfl, rfl, rfl, rfl⟩
    · intro _
      refine ⟨?_, rfl⟩
      simp only [LogService.writeContent_text, LogService.writeTitle_text, ostream.put]
    · intro hlt
      exact absurd hw (by omega)
  · simp only [LogService.handleLog, hlive, hpass, hw, if_true, if_false]
    refine ⟨_, rfl, ?_, ?_, rfl, rfl, rfl, rfl, rfl⟩
    · intro hge
      exact hge.elim
    · intro _
      refine ⟨?_, rfl⟩
      simp only [LogService.writeContent_text, LogService.writeTitle_text]

/-- Witness for C9: the pooled `Info` record of `sampleWorld`, minimum level `Info`. -/
theorem LogService.handleLog_renders_to_one_stream_witness :
    ∃ w1 : World, LogService.handleLog 10 sampleWorld = Outcome.ok () w1 ∧
      (LogLevel.Info.toNat ≥ LogLevel.Warning.toNat →
        w1.cerr.text = sampleWorld.cerr.text ++ "***" ++ titleText "t" ++ "abc" ∧
        w1.cout = sampleWorld.cout) ∧
      (LogLevel.Info.toNat < LogLevel.Warning.toNat →
        w1.cout.text = sampleWorld.cout.text ++ titleText "t" ++ "abc" ∧
        w1.cerr = sampleWorld.cerr) ∧
      w1.heap = sampleWorld.heap ∧ w1.pool_ = sampleWorld.pool_ ∧
      w1.handlers = sampleWorld.handlers ∧ w1.loggedlevel_ = sampleWorld.loggedlevel_ ∧
      w1.delivered = sampleWorld.delivered :=
  LogService.handleLog_renders_to_one_stream 10 sampleWorld
    ⟨1, "t", LogLevel.Info, true, "abc"⟩ (by decide) (by decide)

/-- C10. Flush on line terminator: `string_endswith(text, c)` holds exactly when `text`
is non-empty and its last character is `c` (so never for the empty string), for every
string a `std::string` can hold.  Hence, when a live record at or above the minimum
level is rendered, the stream it is written to is flushed once if the body is
non-empty and ends with the line terminator and not at all otherwise, and the other
stream is never flushed. -/
theorem LogService.handleLog_flushes_iff_body_ends_with_newline (msg : Ptr) (w : World)
    (m : logger) (hlive : StdMap.find msg w.heap = some m)
    (hpass : m.level_.toNat ≥ w.loggedlevel_.toNat) (hlen : m.buf_.length < 2 ^ 64) :
    (∀ (text : String) (c : Char), text.length < 2 ^ 64 →
      (string_endswith text c = true ↔ text ≠ "" ∧ text.data.getLast? = some c)) ∧
    (∀ c : Char, string_endswith "" c = false) ∧
    flushCount "" = 0 ∧
    ∃ w1 : World, LogService.handleLog msg w = Outcome.ok () w1 ∧
      (m.level_.toNat ≥ LogLevel.Warning.toNat →
        w1.cerr.flushes = w.cerr.flushes + flushCount m.buf_ ∧
        w1.cout.flushes = w.cout.flushes) ∧
      (m.level_.toNat < LogLevel.Warning.toNat →
        w1.cout.flushes = w.cout.flushes + flushCount m.buf_ ∧
        w1.cerr.flushes = w.cerr.flushes) := by
  refine ⟨string_endswith_iff, string_endswith_empty, by decide, ?_⟩
  by_cases hw : m.level_.toNat ≥ LogLevel.Warning.toNat
  · simp only [LogService.handleLog, hlive, hpass, hw, if_true]
    refine ⟨_, rfl, ?_, ?_⟩
    · intro _
      refine ⟨?_, rfl⟩
      simp only [LogService.writeContent_flushes _ _ hlen, LogService.writeTitle_text,
        ostream.put]
    · intro hlt
      exact absurd hw (by omega)
  · simp only [LogService.handleLog, hlive, hpass, hw, if_true, if_false]
    refine ⟨_, rfl, ?_, ?_⟩
    · intro hge
      exact hge.elim
    · intro _
      refine ⟨?_, rfl⟩
      simp only [LogService.writeContent_flushes _ _ hlen, LogService.writeTitle_text]

/-- Witness for C10: the `Error` record of `newlineWorld`, whose body ends with the line
terminator, is rendered to the error stream, which is flushed once. -/
theorem LogService.handleLog_flushes_iff_body_ends_with_newline_witness :
    ∃ w1 : World, LogService.handleLog 10 newlineWorld = Outcome.ok () w1 ∧
      (LogLevel.Error.toNat ≥ LogLevel.Warning.toNat →
        w1.cerr.flushes = newlineWorld.cerr.flushes + flushCount "abc\n" ∧
        w1.cout.flushes = newlineWorld.cout.flushes) ∧
      (LogLevel.Error.toNat < LogLevel.Warning.toNat →
        w1.cout.flushes = newlineWorld.cout.flushes + flushCount "abc\n" ∧
        w1.cerr.flushes = newlineWorld.cerr.flushes) :=
  (LogService.handleLog_flushes_iff_body_ends_with_newline 10 newlineWorld
    ⟨1, "t", LogLevel.Error, true, "abc\n"⟩ (by decide) (by decide) (by decide)).2.2.2

end ks

/-! ## `LogPool` -/

namespace ks

theorem finalizeEach_nil {σ V : Type} (f : V → σ → Outcome σ Unit) (s : σ) :
    finalizeEach f [] s = Outcome.ok () s := rfl

theorem clear_byvalue.loop_eq_finalizeEach {σ K V : Type} [DecidableEq K] (f : V → σ → Outcome σ Unit)
    (erase_key : Bool) (es : List (K × V)) :
    ∀ (mapobj : StdMap K V) (s : σ),
      clear_byvalue.loop f erase_key es mapobj s = finalizeEach f (es.map Prod.snd) s := by
  induction es with
  | nil => intro mapobj s; rfl
  | cons e rest ih =>
    intro mapobj s
    obtain ⟨k, v⟩ := e
    simp only [clear_byvalue.loop, List.map_cons, finalizeEach]
    cases f v s with
    | ok u s1 => exact ih _ s1
    | fail e s1 => rfl

theorem clear_bykey.loop_runs_finalizeEach {σ K V : Type} [DecidableEq K] (f : K → σ → Outcome σ Unit)
    (erase_key : Bool) (ks : List K) :
    ∀ (mapobj : StdMap K V) (s : σ),
      clear_bykey.loop f erase_key ks mapobj s = finalizeEach f ks s := by
  induction ks with
  | nil => intro mapobj s; rfl
  | cons k rest ih =>
    intro mapobj s
    simp only [clear_bykey.loop, finalizeEach]
    cases f k s with
    | ok u s1 => exact ih _ s1
    | fail e s1 => rfl

theorem deliveries_congr (hs : List LogHandler) (h1 h2 : StdMap Ptr logger) (ps : List Ptr)
    (hsame : ∀ p ∈ ps, StdMap.find p h1 = StdMap.find p h2) :
    deliveries hs h1 ps = deliveries hs h2 ps := by
  induction ps with
  | nil => rfl
  | cons p rest ih =>
    simp only [deliveries]
    rw [hsame p (List.mem_cons_self _ _), ih (fun q hq => hsame q (List.mem_cons_of_mem _ hq))]

/-- For a live record `m`, `LogPool::handleLog` returns; the queue gains the address
`copy` at its end, and the record created there has the thread, title, severity and
auto-flush setting of `m` and an empty buffer. -/
theorem LogPool.handleLog_appends_clone (copy msg : Ptr) (pw : PoolWorld) (m : logger)
    (hlive : StdMap.find msg pw.world.heap = some m) :
    ∃ pw1 : PoolWorld, LogPool.handleLog copy msg pw = Outcome.ok () pw1 ∧
      pw1.pool.logs_ = pw.pool.logs_ ++ [copy] ∧
      StdMap.find copy pw1.world.heap =
        some (logger.mk_new m.thread_ m.title_ m.level_ m.autoflush_) ∧
      (∀ q : Ptr, q ≠ copy → StdMap.find q pw1.world.heap = StdMap.find q pw.world.heap) ∧
      pw1.pool.handlers = pw.pool.handlers ∧ pw1.pool.registered_ = pw.pool.registered_ ∧
      pw1.regCalls = pw.regCalls ∧ pw1.unregCalls = pw.unregCalls ∧
      pw1.world.delivered = pw.world.delivered := by
  simp only [LogPool.handleLog, hlive]
  refine ⟨_, rfl, rfl, StdMap.find_assign_same _ _ _, ?_, rfl, rfl, rfl, rfl, rfl⟩
  intro q hq
  exact StdMap.find_assign_other _ _ _ _ hq

/-- C11. On `samplePool` the record at address 10 holds the text "abc".
`LogPool::handleLog` appends the address of a new record to the queue and leaves the
original as it was, but the new record is built by the four-argument constructor and
nothing copies the buffer: its thread, title, severity and auto-flush setting are those
of the original while its content is empty, not "abc". -/
theorem LogPool.handleLog_clone_drops_text :
    StdMap.find 10 samplePool.world.heap = some ⟨1, "t", LogLevel.Info, true, "abc"⟩ ∧
    LogPool.handleLog 50 10 samplePool = Outcome.ok ()
      { samplePool with
        world := { sampleWorld with
          heap := [(10, ⟨1, "t", LogLevel.Info, true, "abc"⟩),
                   (50, ⟨1, "t", LogLevel.Info, true, ""⟩)] },
        pool := { samplePool.pool with logs_ := [50] } } ∧
    (logger.mk_new 1 "t" LogLevel.Info true).content ≠
      (⟨1, "t", LogLevel.Info, true, "abc"⟩ : logger).content := by
  decide

end ks

namespace ks

theorem PoolWorld.handleLog_returns (h : LogHandler) (p : Ptr) (pw : PoolWorld) (r : logger)
    (hlive : StdMap.find p pw.world.heap = some r) (hh : ∀ a, h ≠ LogHandler.faulty a) :
    ∃ pw1 : PoolWorld, PoolWorld.handleLog h p pw = Outcome.ok () pw1 ∧
      pw1.pool = pw.pool ∧ pw1.regCalls = pw.regCalls ∧ pw1.unregCalls = pw.unregCalls ∧
      pw1.world.heap = pw.world.heap ∧ pw1.world.pool_ = pw.world.pool_ ∧
      pw1.world.delivered = pw.world.delivered ++ [(h, r)] := by
  obtain ⟨w1, e1, a1, a2, _, _, a5⟩ := World.handleLog_ok h p pw.world r hlive hh
  simp only [PoolWorld.handleLog, e1]
  exact ⟨_, rfl, rfl, rfl, rfl, a1, a2, a5⟩

theorem LogPool.registry_then_clean (hs : List LogHandler) (p : Ptr) (r : logger) :
    ∀ pw : PoolWorld, StdMap.find p pw.world.heap = some r →
    (∀ h ∈ hs, ∀ a, h ≠ LogHandler.faulty a) →
    ∃ pw1 : PoolWorld,
      LogHandlerManager.dispatch PoolWorld.handleLog LogPool.clean hs p pw =
        LogPool.clean p pw1 ∧
      pw1.pool = pw.pool ∧ pw1.regCalls = pw.regCalls ∧ pw1.unregCalls = pw.unregCalls ∧
      pw1.world.heap = pw.world.heap ∧ pw1.world.pool_ = pw.world.pool_ ∧
      pw1.world.delivered = pw.world.delivered ++ hs.map (fun h => (h, r)) := by
  induction hs with
  | nil =>
    intro pw _ _
    exact ⟨pw, rfl, rfl, rfl, rfl, rfl, rfl, by simp⟩
  | cons h rest ih =>
    intro pw hlive hh
    obtain ⟨pw1, e1, a1, a2, a3, a4, a5, a6⟩ :=
      PoolWorld.handleLog_returns h p pw r hlive (hh h (List.mem_cons_self _ _))
    obtain ⟨pw2, e2, b1, b2, b3, b4, b5, b6⟩ :=
      ih pw1 (by rw [a4]; exact hlive) (fun x hx => hh x (List.mem_cons_of_mem _ hx))
    refine ⟨pw2, ?_, b1.trans a1, b2.trans a2, b3.trans a3, b4.trans a4, b5.trans a5, ?_⟩
    · simp only [LogHandlerManager.dispatch, e1]
      exact e2
    · rw [b6, a6]
      simp

theorem LogPool.clean_head (p : Ptr) (rest : List Ptr) (pw : PoolWorld)
    (hq : pw.pool.logs_ = p :: rest) :
    LogPool.clean p pw = Outcome.ok ()
      { pw with
        world := { pw.world with heap := StdMap.erase p pw.world.heap },
        pool := { pw.pool with logs_ := rest } } := by
  simp [LogPool.clean, hq, std_find, vector_erase]

/-- One `LogPool::dispatch` of the record at the head of the queue. -/
theorem LogPool.dispatch_head (p : Ptr) (rest : List Ptr) (pw : PoolWorld) (r : logger)
    (hq : pw.pool.logs_ = p :: rest) (hlive : StdMap.find p pw.world.heap = some r)
    (hh : ∀ h ∈ pw.pool.handlers, ∀ a, h ≠ LogHandler.faulty a) :
    ∃ pw1 : PoolWorld, LogPool.dispatch p pw = Outcome.ok () pw1 ∧
      pw1.pool.logs_ = rest ∧ pw1.pool.handlers = pw.pool.handlers ∧
      pw1.pool.registered_ = pw.pool.registered_ ∧
      pw1.regCalls = pw.regCalls ∧ pw1.unregCalls = pw.unregCalls ∧
      pw1.world.heap = StdMap.erase p pw.world.heap ∧ pw1.world.pool_ = pw.world.pool_ ∧
      pw1.world.delivered = pw.world.delivered ++ pw.pool.handlers.map (fun h => (h, r)) := by
  obtain ⟨pw0, e0, a1, a2, a3, a4, a5, a6⟩ :=
    LogPool.registry_then_clean pw.pool.handlers p r pw hlive hh
  have hc := LogPool.clean_head p rest pw0 (by rw [a1]; exact hq)
  refine ⟨{ pw0 with
      world := { pw0.world with heap := StdMap.erase p pw0.world.heap },
      pool := { pw0.pool with logs_ := rest } }, ?_, rfl, ?_, ?_, a2, a3, ?_, a5, a6⟩
  · unfold LogPool.dispatch
    rw [e0, hc]
  · show pw0.pool.handlers = _
    rw [a1]
  · show pw0.pool.registered_ = _
    rw [a1]
  · show StdMap.erase p pw0.world.heap = _
    rw [a4]

/-- The loop of `dispatchAll` over a queue of pairwise different live records. -/
theorem LogPool.drain (q : List Ptr) :
    ∀ pw : PoolWorld, pw.pool.logs_ = q → q.Nodup →
    (∀ p ∈ q, (StdMap.find p pw.world.heap).isSome = true) →
    (∀ h ∈ pw.pool.handlers, ∀ a, h ≠ LogHandler.faulty a) →
    ∃ pw1 : PoolWorld, finalizeEach LogPool.dispatch q pw = Outcome.ok () pw1 ∧
      pw1.pool.logs_ = [] ∧ pw1.pool.handlers = pw.pool.handlers ∧
      pw1.pool.registered_ = pw.pool.registered_ ∧
      pw1.regCalls = pw.regCalls ∧ pw1.unregCalls = pw.unregCalls ∧
      pw1.world.pool_ = pw.world.pool_ ∧
      pw1.world.delivered =
        pw.world.delivered ++ deliveries pw.pool.handlers pw.world.heap q ∧
      (∀ p ∈ q, StdMap.find p pw1.world.heap = none) ∧
      (∀ p : Ptr, p ∉ q → StdMap.find p pw1.world.heap = StdMap.find p pw.world.heap) := by
  induction q with
  | nil =>
    intro pw hq _ _ _
    refine ⟨pw, rfl, hq, rfl, rfl, rfl, rfl, rfl, by simp [deliveries], ?_, fun _ _ => rfl⟩
    intro p hp
    simp at hp
  | cons p rest ih =>
    intro pw hq hnd hlive hh
    have hp := hlive p (List.mem_cons_self _ _)
    obtain ⟨r, hr⟩ := Option.isSome_iff_exists.mp hp
    obtain ⟨pw1, e1, a1, a2, a3, a4, a5, a6, a7, a8⟩ :=
      LogPool.dispatch_head p rest pw r hq hr hh
    have hnd2 := List.nodup_cons.mp hnd
    have hother : ∀ x ∈ rest, StdMap.find x pw1.world.heap = StdMap.find x pw.world.heap := by
      intro x hx
      rw [a6]
      apply StdMap.find_erase_other
      intro hxp
      exact hnd2.1 (hxp ▸ hx)
    obtain ⟨pw2, e2, b1, b2, b3, b4, b5, b6, b7, b8, b9⟩ :=
      ih pw1 a1 hnd2.2
        (fun x hx => by rw [hother x hx]; exact hlive x (List.mem_cons_of_mem _ hx))
        (by rw [a2]; exact hh)
    refine ⟨pw2, ?_, b1, b2.trans a2, b3.trans a3, b4.trans a4, b5.trans a5, b6.trans a7,
      ?_, ?_, ?_⟩
    · simp only [finalizeEach, e1]
      exact e2
    · rw [b7, a8, a2, deliveries_congr _ _ _ _ hother]
      simp [deliveries, hr]
    · intro x hx
      rcases List.mem_cons.mp hx with rfl | hx
      · rw [b9 x hnd2.1, a6]
        exact StdMap.find_erase_same _ _
      · exact b8 x hx
    · intro x hx
      have hxp : x ≠ p := fun e => hx (e ▸ List.mem_cons_self _ _)
      have hxr : x ∉ rest := fun e => hx (List.mem_cons_of_mem _ e)
      rw [b9 x hxr, a6]
      exact StdMap.find_erase_other _ _ _ hxp

end ks

namespace ks

theorem LogHandlerManager.dispatch_preserves {σ H M : Type} (P : σ → Prop)
    (f : H → M → σ → Outcome σ Unit) (g : M → σ → Outcome σ Unit)
    (hf : ∀ (h : H) (m : M) (s : σ), P s → P (f h m s).state)
    (hg : ∀ (m : M) (s : σ), P s → P (g m s).state) (hs : List H) (m : M) :
    ∀ s : σ, P s → P (LogHandlerManager.dispatch f g hs m s).state := by
  induction hs with
  | nil =>
    intro s hP
    exact hg m s hP
  | cons h rest ih =>
    intro s hP
    have h1 := hf h m s hP
    simp only [LogHandlerManager.dispatch]
    cases hfs : f h m s with
    | ok u s1 =>
      rw [hfs] at h1
      exact ih s1 h1
    | fail e s1 =>
      rw [hfs] at h1
      exact h1

theorem finalizeEach_preserves {σ V : Type} (P : σ → Prop) (f : V → σ → Outcome σ Unit)
    (hf : ∀ (x : V) (s : σ), P s → P (f x s).state) (xs : List V) :
    ∀ s : σ, P s → P (finalizeEach f xs s).state := by
  induction xs with
  | nil =>
    intro s hP
    exact hP
  | cons x rest ih =>
    intro s hP
    have h1 := hf x s hP
    simp only [finalizeEach]
    cases hfs : f x s with
    | ok u s1 =>
      rw [hfs] at h1
      exact ih s1 h1
    | fail e s1 =>
      rw [hfs] at h1
      exact h1

theorem PoolWorld.handleLog_regState (c : Bool × Nat × Nat) (h : LogHandler) (m : Ptr)
    (pw : PoolWorld) (hP : LogPool.regState pw = c) :
    LogPool.regState (PoolWorld.handleLog h m pw).state = c := by
  unfold PoolWorld.handleLog
  cases World.handleLog h m pw.world <;> exact hP

theorem LogPool.clean_regState (c : Bool × Nat × Nat) (m : Ptr) (pw : PoolWorld)
    (hP : LogPool.regState pw = c) : LogPool.regState (LogPool.clean m pw).state = c := by
  unfold LogPool.clean
  split_ifs
  · cases vector_erase pw.pool.logs_ (std_find m pw.pool.logs_) <;> exact hP
  · exact hP

theorem LogPool.dispatch_regState (c : Bool × Nat × Nat) (m : Ptr) (pw : PoolWorld)
    (hP : LogPool.regState pw = c) : LogPool.regState (LogPool.dispatch m pw).state = c :=
  LogHandlerManager.dispatch_preserves (fun s => LogPool.regState s = c) PoolWorld.handleLog
    LogPool.clean (PoolWorld.handleLog_regState c) (LogPool.clean_regState c) _ m pw hP

theorem LogPool.unregister_spec (pw : PoolWorld) :
    (LogPool.unregister pw).pool.registered_ = false ∧
    (LogPool.unregister pw).regCalls = pw.regCalls ∧
    (LogPool.unregister pw).unregCalls =
      pw.unregCalls + (if pw.pool.registered_ = true then 1 else 0) ∧
    (LogPool.unregister pw).pool.logs_ = pw.pool.logs_ ∧
    (LogPool.unregister pw).pool.handlers = pw.pool.handlers ∧
    (LogPool.unregister pw).world = pw.world := by
  unfold LogPool.unregister
  cases hreg : pw.pool.registered_ <;> simp [hreg]

/-- What one call does to the registration state of a pool. -/
theorem LogPool.step_regState (op : LogPool.Op) (pw : PoolWorld) :
    (LogPool.step op pw).regCalls = pw.regCalls ∧
    (pw.pool.registered_ = false → (LogPool.step op pw).pool.registered_ = false) ∧
    (LogPool.step op pw).unregCalls = pw.unregCalls +
      (if pw.pool.registered_ = true ∧ (LogPool.step op pw).pool.registered_ = false
        then 1 else 0) ∧
    (op = LogPool.Op.destroy → (LogPool.step op pw).pool.registered_ = false) := by
  have key : ∀ pw' : PoolWorld, LogPool.regState pw' = LogPool.regState pw →
      pw'.regCalls = pw.regCalls ∧
      (pw.pool.registered_ = false → pw'.pool.registered_ = false) ∧
      pw'.unregCalls = pw.unregCalls +
        (if pw.pool.registered_ = true ∧ pw'.pool.registered_ = false then 1 else 0) := by
    intro pw' h
    simp only [LogPool.regState, Prod.mk.injEq] at h
    obtain ⟨h1, h2, h3⟩ := h
    refine ⟨h2, fun hf => h1.trans hf, ?_⟩
    rw [h3, h1]
    cases pw.pool.registered_ <;> simp
  have keyU : ∀ pw' : PoolWorld, LogPool.regState pw' = LogPool.regState pw →
      (LogPool.unregister pw').regCalls = pw.regCalls ∧
      (pw.pool.registered_ = false → (LogPool.unregister pw').pool.registered_ = false) ∧
      (LogPool.unregister pw').unregCalls = pw.unregCalls +
        (if pw.pool.registered_ = true ∧ (LogPool.unregister pw').pool.registered_ = false
          then 1 else 0) := by
    intro pw' h
    simp only [LogPool.regState, Prod.mk.injEq] at h
    obtain ⟨h1, h2, h3⟩ := h
    obtain ⟨u1, u2, u3, _, _, _⟩ := LogPool.unregister_spec pw'
    refine ⟨u2.trans h2, fun _ => u1, ?_⟩
    rw [u3, u1, h3, h1]
    cases pw.pool.registered_ <;> simp
  cases op with
  | handleLog copy msg =>
    have hs : LogPool.regState (LogPool.handleLog copy msg pw).state = LogPool.regState pw := by
      unfold LogPool.handleLog
      cases pw.world.heap.find msg <;> rfl
    obtain ⟨k1, k2, k3⟩ := key _ hs
    exact ⟨k1, k2, k3, fun h => by cases h⟩
  | dispatchAll unregister =>
    have hloop := finalizeEach_preserves (fun s => LogPool.regState s = LogPool.regState pw)
      LogPool.dispatch (LogPool.dispatch_regState _) pw.pool.logs_ pw rfl
    have hstep : LogPool.step (LogPool.Op.dispatchAll unregister) pw =
        (LogPool.dispatchAll unregister pw).state := rfl
    rw [hstep]
    unfold LogPool.dispatchAll clear_vector
    cases hfe : finalizeEach LogPool.dispatch pw.pool.logs_ pw with
    | ok u pw1 =>
      rw [hfe] at hloop
      cases unregister with
      | true =>
        obtain ⟨k1, k2, k3⟩ := keyU pw1 hloop
        exact ⟨k1, k2, k3, fun h => by cases h⟩
      | false =>
        obtain ⟨k1, k2, k3⟩ := key pw1 hloop
        exact ⟨k1, k2, k3, fun h => by cases h⟩
    | fail e pw1 =>
      rw [hfe] at hloop
      obtain ⟨k1, k2, k3⟩ := key pw1 hloop
      exact ⟨k1, k2, k3, fun h => by cases h⟩
  | addHandler handler =>
    obtain ⟨k1, k2, k3⟩ := key (LogPool.addHandler handler pw) rfl
    exact ⟨k1, k2, k3, fun h => by cases h⟩
  | destroy =>
    obtain ⟨k1, k2, k3⟩ := keyU pw rfl
    exact ⟨k1, k2, k3, fun _ => (LogPool.unregister_spec pw).1⟩

theorem LogPool.run_regState (ops : List LogPool.Op) :
    ∀ pw : PoolWorld, pw.regCalls = 1 →
      pw.unregCalls = (if pw.pool.registered_ = true then 0 else 1) →
      (LogPool.run ops pw).regCalls = 1 ∧
      (LogPool.run ops pw).unregCalls =
        (if (LogPool.run ops pw).pool.registered_ = true then 0 else 1) := by
  induction ops with
  | nil =>
    intro pw h1 h2
    exact ⟨h1, h2⟩
  | cons op rest ih =>
    intro pw h1 h2
    obtain ⟨s1, s2, s3, _⟩ := LogPool.step_regState op pw
    apply ih (LogPool.step op pw) (s1.trans h1)
    rw [s3, h2]
    cases hr : pw.pool.registered_
    · simp [s2 hr]
    · cases hr2 : (LogPool.step op pw).pool.registered_ <;> simp

end ks

namespace ks

/-- The queue of a freshly constructed pool is in order, and capturing a live record at
an address that is not in use keeps it so. -/
theorem LogPool.handleLog_queueOk (copy msg : Ptr) (pw : PoolWorld) (hq : LogPool.QueueOk pw)
    (hlive : (StdMap.find msg pw.world.heap).isSome = true)
    (hfresh : StdMap.find copy pw.world.heap = none) :
    ∃ pw1 : PoolWorld, LogPool.handleLog copy msg pw = Outcome.ok () pw1 ∧
      LogPool.QueueOk pw1 ∧ pw1.pool.logs_ = pw.pool.logs_ ++ [copy] ∧
      pw1.pool.handlers = pw.pool.handlers := by
  obtain ⟨m, hm⟩ := Option.isSome_iff_exists.mp hlive
  obtain ⟨pw1, e1, a1, a2, a3, a4, _⟩ := LogPool.handleLog_appends_clone copy msg pw m hm
  have hnot : copy ∉ pw.pool.logs_ := by
    intro hmem
    have := hq.2 copy hmem
    rw [hfresh] at this
    simp at this
  refine ⟨pw1, e1, ⟨?_, ?_⟩, a1, a4⟩
  · rw [a1]
    exact List.Nodup.append hq.1 (List.nodup_singleton copy)
      (by
        intro x hx hx2
        rw [List.mem_singleton] at hx2
        exact hnot (hx2 ▸ hx))
  · intro p hp
    rw [a1, List.mem_append, List.mem_singleton] at hp
    rcases hp with hp | rfl
    · have hne : p ≠ copy := fun e => hnot (e ▸ hp)
      rw [a3 p hne]
      exact hq.2 p hp
    · rw [a2]
      rfl

/-- C12. Buffering replay order: when the queue of a pool holds pairwise different live
clones (which is what capturing live records at unused addresses produces, clone after
clone at the end of the queue) and the downstream handlers return normally,
`dispatchAll(false)` returns; the deliveries it adds are, clone by clone in queue
(arrival) order, one delivery of that clone to every handler of the registry of the
pool in registration order; afterwards the queue is empty and the clones are released,
and the registration state is untouched.  On an empty queue `dispatchAll(false)`
returns the state unchanged. -/
theorem LogPool.dispatchAll_replays_in_arrival_order (pw : PoolWorld)
    (hq : LogPool.QueueOk pw) (hh : ∀ h ∈ pw.pool.handlers, ∀ a, h ≠ LogHandler.faulty a) :
    (∃ pw1 : PoolWorld, LogPool.dispatchAll false pw = Outcome.ok () pw1 ∧
      pw1.world.delivered =
        pw.world.delivered ++ deliveries pw.pool.handlers pw.world.heap pw.pool.logs_ ∧
      pw1.pool.logs_ = [] ∧
      (∀ p ∈ pw.pool.logs_, StdMap.find p pw1.world.heap = none) ∧
      LogPool.regState pw1 = LogPool.regState pw ∧ pw1.pool.handlers = pw.pool.handlers) ∧
    (pw.pool.logs_ = [] → LogPool.dispatchAll false pw = Outcome.ok () pw) ∧
    (∀ copy msg : Ptr, (StdMap.find msg pw.world.heap).isSome = true →
      StdMap.find copy pw.world.heap = none →
      ∃ pw2 : PoolWorld, LogPool.handleLog copy msg pw = Outcome.ok () pw2 ∧
        LogPool.QueueOk pw2 ∧ pw2.pool.logs_ = pw.pool.logs_ ++ [copy] ∧
        pw2.pool.handlers = pw.pool.handlers) := by
  obtain ⟨pw1, e1, a1, a2, a3, a4, a5, _, a7, a8, _⟩ :=
    LogPool.drain pw.pool.logs_ pw rfl hq.1 hq.2 hh
  refine ⟨⟨pw1, ?_, a7, a1, a8, ?_, a2⟩, ?_, ?_⟩
  · simp [LogPool.dispatchAll, clear_vector, e1]
  · simp only [LogPool.regState, a3, a4, a5]
  · intro hempty
    simp [LogPool.dispatchAll, clear_vector, hempty, finalizeEach]
  · intro copy msg hlive hfresh
    exact LogPool.handleLog_queueOk copy msg pw hq hlive hfresh

/-- Witness for C12: the two clones captured in `capturedPool` are replayed in the
order 50, 51. -/
theorem LogPool.dispatchAll_replays_in_arrival_order_witness :
    ∃ pw1 : PoolWorld, LogPool.dispatchAll false capturedPool = Outcome.ok () pw1 ∧
      pw1.world.delivered = capturedPool.world.delivered ++
        deliveries capturedPool.pool.handlers capturedPool.world.heap capturedPool.pool.logs_ ∧
      pw1.pool.logs_ = [] ∧
      (∀ p ∈ capturedPool.pool.logs_, StdMap.find p pw1.world.heap = none) ∧
      LogPool.regState pw1 = LogPool.regState capturedPool ∧
      pw1.pool.handlers = capturedPool.pool.handlers :=
  (LogPool.dispatchAll_replays_in_arrival_order capturedPool
    (by unfold LogPool.QueueOk; decide)
    (by
      intro h hmem a
      have hm : h = LogHandler.capture 8 := by
        have : capturedPool.pool.handlers = [LogHandler.capture 8] := by decide
        rw [this] at hmem
        simpa using hmem
      subst hm
      simp)).1

/-- C13 (as stated, refuted). On `samplePool`, `dispatchAll(true)` detaches the handler
(one `unreg_` call, flag false, queue empty), and a `handleLog` call made on the pool
afterwards still clones the record and appends it: the queue is then not empty. -/
theorem LogPool.handleLog_after_detach_still_captures :
    ∃ pw1 pw2 : PoolWorld, LogPool.dispatchAll true samplePool = Outcome.ok () pw1 ∧
      pw1.pool.registered_ = false ∧ pw1.unregCalls = 1 ∧ pw1.pool.logs_ = [] ∧
      LogPool.handleLog 50 10 pw1 = Outcome.ok () pw2 ∧ pw2.pool.logs_ = [50] ∧
      pw2.pool.logs_ ≠ [] :=
  ⟨LogPool.unregister samplePool, (LogPool.handleLog 50 10 (LogPool.unregister samplePool)).state,
    by decide, by decide, by decide, by decide, by decide, by decide, by decide⟩

/-- C13 (amended). For a registered pool whose queue holds pairwise different live
clones and whose downstream handlers return normally, `dispatchAll(true)` returns with
the queue empty, the `unreg_` callback called once more and the registered flag false.
`handleLog` itself does not look at the flag: called on the pool afterwards with a live
record it still appends a clone, so the queue then holds exactly that clone. -/
theorem LogPool.dispatchAll_true_detaches_handleLog_still_appends (pw : PoolWorld)
    (hq : LogPool.QueueOk pw) (hh : ∀ h ∈ pw.pool.handlers, ∀ a, h ≠ LogHandler.faulty a)
    (hreg : pw.pool.registered_ = true) :
    ∃ pw1 : PoolWorld, LogPool.dispatchAll true pw = Outcome.ok () pw1 ∧
      pw1.pool.registered_ = false ∧ pw1.unregCalls = pw.unregCalls + 1 ∧
      pw1.regCalls = pw.regCalls ∧ pw1.pool.logs_ = [] ∧
      ∀ (copy msg : Ptr) (m : logger), StdMap.find msg pw1.world.heap = some m →
        ∃ pw2 : PoolWorld, LogPool.handleLog copy msg pw1 = Outcome.ok () pw2 ∧
          pw2.pool.logs_ = [copy] ∧
          StdMap.find copy pw2.world.heap =
            some (logger.mk_new m.thread_ m.title_ m.level_ m.autoflush_) := by
  obtain ⟨pw1, e1, a1, _, a3, a4, a5, _, _, _, _⟩ :=
    LogPool.drain pw.pool.logs_ pw rfl hq.1 hq.2 hh
  obtain ⟨u1, u2, u3, u4, _, u6⟩ := LogPool.unregister_spec pw1
  refine ⟨LogPool.unregister pw1, ?_, u1, ?_, u2.trans a4, u4.trans a1, ?_⟩
  · simp [LogPool.dispatchAll, clear_vector, e1]
  · rw [u3, a3, hreg, a5]
    simp
  · intro copy msg m hm
    obtain ⟨pw2, e2, b1, b2, _⟩ :=
      LogPool.handleLog_appends_clone copy msg (LogPool.unregister pw1) m hm
    refine ⟨pw2, e2, ?_, b2⟩
    rw [b1, u4, a1]
    rfl

/-- Witness for C13 (amended) on `capturedPool`. -/
theorem LogPool.dispatchAll_true_detaches_handleLog_still_appends_witness :
    ∃ pw1 : PoolWorld, LogPool.dispatchAll true capturedPool = Outcome.ok () pw1 ∧
      pw1.pool.registered_ = false ∧ pw1.unregCalls = capturedPool.unregCalls + 1 ∧
      pw1.regCalls = capturedPool.regCalls ∧ pw1.pool.logs_ = [] ∧
      ∀ (copy msg : Ptr) (m : logger), StdMap.find msg pw1.world.heap = some m →
        ∃ pw2 : PoolWorld, LogPool.handleLog copy msg pw1 = Outcome.ok () pw2 ∧
          pw2.pool.logs_ = [copy] ∧
          StdMap.find copy pw2.world.heap =
            some (logger.mk_new m.thread_ m.title_ m.level_ m.autoflush_) :=
  LogPool.dispatchAll_true_detaches_handleLog_still_appends capturedPool
    (by unfold LogPool.QueueOk; decide)
    (by
      intro h hmem a
      have hm : h = LogHandler.capture 8 := by
        have : capturedPool.pool.handlers = [LogHandler.capture 8] := by decide
        rw [this] at hmem
        simpa using hmem
      subst hm
      simp)
    (by decide)

/-- C14. Registration state machine of `LogPool`: construction calls the attach callback
once and sets the flag.  After every sequence of `handleLog`, `dispatchAll(false)`,
`dispatchAll(true)`, `addHandler` and destruction calls, whether they return or stop,
the attach callback has still been called exactly once and the detach callback at most
once, namely once exactly if the flag is false.  In every single call the flag never
goes from false to true, the detach count grows by one exactly when the flag goes from
true to false and not otherwise, and destruction leaves the flag false. -/
theorem LogPool.registration_state_machine :
    (∀ w : World, (LogPool.construct w).regCalls = 1 ∧ (LogPool.construct w).unregCalls = 0 ∧
      (LogPool.construct w).pool.registered_ = true) ∧
    (∀ (ops : List LogPool.Op) (w : World),
      (LogPool.run ops (LogPool.construct w)).regCalls = 1 ∧
      (LogPool.run ops (LogPool.construct w)).unregCalls ≤ 1 ∧
      ((LogPool.run ops (LogPool.construct w)).unregCalls = 1 ↔
        (LogPool.run ops (LogPool.construct w)).pool.registered_ = false)) ∧
    (∀ (op : LogPool.Op) (pw : PoolWorld),
      (LogPool.step op pw).regCalls = pw.regCalls ∧
      (pw.pool.registered_ = false → (LogPool.step op pw).pool.registered_ = false) ∧
      (LogPool.step op pw).unregCalls = pw.unregCalls +
        (if pw.pool.registered_ = true ∧ (LogPool.step op pw).pool.registered_ = false
          then 1 else 0) ∧
      (op = LogPool.Op.destroy → (LogPool.step op pw).pool.registered_ = false)) := by
  refine ⟨fun w => ⟨rfl, rfl, rfl⟩, ?_, LogPool.step_regState⟩
  intro ops w
  obtain ⟨h1, h2⟩ := LogPool.run_regState ops (LogPool.construct w) rfl rfl
  refine ⟨h1, ?_, ?_⟩
  · rw [h2]
    split_ifs <;> omega
  · rw [h2]
    cases (LogPool.run ops (LogPool.construct w)).pool.registered_ <;> simp

end ks

/-! ## Directives: `ks::endl` and `ks::flush` -/

namespace ks

theorem World.pooled_assign_heap (w : World) (heap : StdMap Ptr logger) (id : ks_thread_id)
    (level : LogLevel) : World.pooled { w with heap := heap } id level = w.pooled id level :=
  rfl

/-- C15. Auto-flush on terminator.  Let a live record `r` at address `p` be pooled under
its own key and let the registered handlers return normally.  Appending any text with
the generic operator returns, delivers nothing and leaves the record pooled with the
text added.  If `r` is auto-flushing, applying `ks::endl` after such an append adds the
line terminator and then dispatches the record exactly once: every handler receives,
once and in order, the record whose content is the old text, the appended text and the
terminator, and the record is then unpooled and released.  If `r` is not
auto-flushing, `ks::endl` adds the terminator and delivers nothing, the record staying
pooled.  `ks::flush` dispatches the record exactly once with its content unchanged. -/
theorem logger.endl_dispatches_auto_flushing_record (p : Ptr) (w : World) (r : logger)
    (hpool : w.pooled r.thread_ r.level_ = some p) (hlive : StdMap.find p w.heap = some r)
    (hh : ∀ h ∈ w.handlers, ∀ a, h ≠ LogHandler.faulty a) :
    (∀ text : String, ∃ w1 : World, logger.append p text w = Outcome.ok () w1 ∧
      w1.delivered = w.delivered ∧ w1.pooled r.thread_ r.level_ = some p ∧
      StdMap.find p w1.heap = some { r with buf_ := r.buf_ ++ text } ∧
      w1.cout = w.cout ∧ w1.cerr = w.cerr ∧
      (r.autoflush_ = true → ∃ w2 : World,
        logger.append_meta p LogMeta.endl w1 = Outcome.ok () w2 ∧
        w2.delivered = w.delivered ++
          w.handlers.map (fun h => (h, { r with buf_ := r.buf_ ++ text ++ "\n" })) ∧
        w2.pooled r.thread_ r.level_ = none ∧ StdMap.find p w2.heap = none)) ∧
    (r.autoflush_ = false → ∃ w1 : World,
      logger.append_meta p LogMeta.endl w = Outcome.ok () w1 ∧
      w1.delivered = w.delivered ∧ w1.pooled r.thread_ r.level_ = some p ∧
      StdMap.find p w1.heap = some { r with buf_ := r.buf_ ++ "\n" } ∧
      w1.cout = w.cout ∧ w1.cerr = w.cerr) ∧
    (∃ w1 : World, logger.append_meta p LogMeta.flush w = Outcome.ok () w1 ∧
      w1.delivered = w.delivered ++ w.handlers.map (fun h => (h, r)) ∧
      w1.pooled r.thread_ r.level_ = none ∧ StdMap.find p w1.heap = none) := by
  refine ⟨?_, ?_, ?_⟩
  · intro text
    have hlive1 : StdMap.find p (StdMap.assign p { r with buf_ := r.buf_ ++ text } w.heap) =
        some { r with buf_ := r.buf_ ++ text } := StdMap.find_assign_same _ _ _
    refine ⟨_, logger.append_ok p text w r hlive, rfl, hpool, hlive1, rfl, rfl, ?_⟩
    intro hauto
    have hlive2 : StdMap.find p (StdMap.assign p { r with buf_ := r.buf_ ++ text ++ "\n" }
        (StdMap.assign p { r with buf_ := r.buf_ ++ text } w.heap)) =
        some { r with buf_ := r.buf_ ++ text ++ "\n" } := StdMap.find_assign_same _ _ _
    obtain ⟨w2, e2, d1, d2, d3, _, _, _⟩ := LogService.dispatch_owned p
      { w with
        heap := StdMap.assign p { r with buf_ := r.buf_ ++ text ++ "\n" }
                  (StdMap.assign p { r with buf_ := r.buf_ ++ text } w.heap) }
      { r with buf_ := r.buf_ ++ text ++ "\n" } hpool hlive2 hh
    refine ⟨w2, ?_, d1, d2, d3⟩
    simp only [logger.append_meta, if_true, hlive1, logger.dispatch]
    rw [if_pos hauto]
    exact e2
  · intro hauto
    refine ⟨{ w with heap := StdMap.assign p { r with buf_ := r.buf_ ++ "\n" } w.heap }, ?_, rfl,
      hpool, StdMap.find_assign_same _ _ _, rfl, rfl⟩
    simp [logger.append_meta, hlive, hauto]
  · obtain ⟨w1, e1, d1, d2, d3, _, _, _⟩ := LogService.dispatch_owned p w r hpool hlive hh
    refine ⟨w1, ?_, d1, d2, d3⟩
    simp only [logger.append_meta, logger.dispatch]
    exact e1

/-- Witness for C15 on `sampleWorld`: the text "xy" and then `ks::endl` on the pooled
auto-flushing record at address 10. -/
theorem logger.endl_dispatches_auto_flushing_record_witness :
    ∃ w1 : World, logger.append 10 "xy" sampleWorld = Outcome.ok () w1 ∧
      w1.delivered = sampleWorld.delivered ∧ w1.pooled 1 LogLevel.Info = some 10 ∧
      StdMap.find 10 w1.heap = some ⟨1, "t", LogLevel.Info, true, "abc" ++ "xy"⟩ ∧
      w1.cout = sampleWorld.cout ∧ w1.cerr = sampleWorld.cerr ∧
      (true = true → ∃ w2 : World,
        logger.append_meta 10 LogMeta.endl w1 = Outcome.ok () w2 ∧
        w2.delivered = sampleWorld.delivered ++ sampleWorld.handlers.map
          (fun h => (h, (⟨1, "t", LogLevel.Info, true, "abc" ++ "xy" ++ "\n"⟩ : logger))) ∧
        w2.pooled 1 LogLevel.Info = none ∧ StdMap.find 10 w2.heap = none) :=
  (logger.endl_dispatches_auto_flushing_record 10 sampleWorld
    ⟨1, "t", LogLevel.Info, true, "abc"⟩ (by decide) (by decide)
    (by
      intro h hmem a
      simp only [sampleWorld, List.mem_cons, List.mem_singleton, List.not_mem_nil, or_false] at hmem
      rcases hmem with rfl | rfl <;> simp)).1 "xy"

/-- C16 (as stated, refuted). On `sampleWorld` the pooled record at address 10 is
auto-flushing.  Appending the text "done\n" with the generic operator only extends the
buffer: nothing is delivered, nothing is written, and the record is still pooled. -/
theorem logger.append_terminated_text_does_not_dispatch :
    StdMap.find 10 sampleWorld.heap = some ⟨1, "t", LogLevel.Info, true, "abc"⟩ ∧
    logger.append 10 "done\n" sampleWorld = Outcome.ok ()
      { sampleWorld with heap := [(10, ⟨1, "t", LogLevel.Info, true, "abcdone\n"⟩)] } ∧
    (logger.append 10 "done\n" sampleWorld).state.delivered = [] ∧
    (logger.append 10 "done\n" sampleWorld).state.pooled 1 LogLevel.Info = some 10 := by
  decide

/-- C16 (amended). For a live auto-flushing record pooled under its own key, with
handlers that return normally: appending text with the generic operator never
dispatches, whatever the text ends with (nothing is delivered and the record stays
pooled); the record is dispatched by the directive `ks::endl`, which adds the line
terminator and dispatches it immediately afterwards, every handler receiving the text
with the terminator once. -/
theorem logger.only_endl_directive_auto_flushes (p : Ptr) (w : World) (r : logger)
    (hpool : w.pooled r.thread_ r.level_ = some p) (hlive : StdMap.find p w.heap = some r)
    (hauto : r.autoflush_ = true)
    (hh : ∀ h ∈ w.handlers, ∀ a, h ≠ LogHandler.faulty a) :
    (∀ text : String, ∃ w1 : World, logger.append p text w = Outcome.ok () w1 ∧
      w1.delivered = w.delivered ∧ w1.pooled r.thread_ r.level_ = some p ∧
      StdMap.find p w1.heap = some { r with buf_ := r.buf_ ++ text }) ∧
    (∃ w2 : World, logger.append_meta p LogMeta.endl w = Outcome.ok () w2 ∧
      w2.delivered = w.delivered ++
        w.handlers.map (fun h => (h, { r with buf_ := r.buf_ ++ "\n" })) ∧
      w2.pooled r.thread_ r.level_ = none ∧ StdMap.find p w2.heap = none) := by
  refine ⟨?_, ?_⟩
  · intro text
    exact ⟨_, logger.append_ok p text w r hlive, rfl, hpool, StdMap.find_assign_same _ _ _⟩
  · have hlive2 : StdMap.find p (StdMap.assign p { r with buf_ := r.buf_ ++ "\n" } w.heap) =
        some { r with buf_ := r.buf_ ++ "\n" } := StdMap.find_assign_same _ _ _
    obtain ⟨w2, e2, d1, d2, d3, _, _, _⟩ := LogService.dispatch_owned p
      { w with heap := StdMap.assign p { r with buf_ := r.buf_ ++ "\n" } w.heap }
      { r with buf_ := r.buf_ ++ "\n" } hpool hlive2 hh
    refine ⟨w2, ?_, d1, d2, d3⟩
    simp only [logger.append_meta, if_true, hlive, logger.dispatch]
    rw [if_pos hauto]
    exact e2

/-- Witness for C16 (amended) on `sampleWorld` and its record at address 10. -/
theorem logger.only_endl_directive_auto_flushes_witness :
    ∃ w2 : World, logger.append_meta 10 LogMeta.endl sampleWorld = Outcome.ok () w2 ∧
      w2.delivered = sampleWorld.delivered ++ sampleWorld.handlers.map
        (fun h => (h, (⟨1, "t", LogLevel.Info, true, "abc" ++ "\n"⟩ : logger))) ∧
      w2.pooled 1 LogLevel.Info = none ∧ StdMap.find 10 w2.heap = none :=
  (logger.only_endl_directive_auto_flushes 10 sampleWorld
    ⟨1, "t", LogLevel.Info, true, "abc"⟩ (by decide) (by decide) rfl
    (by
      intro h hmem a
      simp only [sampleWorld, List.mem_cons, List.mem_singleton, List.not_mem_nil, or_false] at hmem
      rcases hmem with rfl | rfl <;> simp)).2

end ks

/-! ## `LogService::clean(ks_thread_id)`, `LogService::clean()` and the destructor -/

namespace ks

theorem StdMap.find_of_mem {K V : Type} [DecidableEq K] (m : StdMap K V)
    (hnd : (m.map Prod.fst).Nodup) (k : K) (v : V) (hmem : (k, v) ∈ m) :
    StdMap.find k m = some v := by
  induction m with
  | nil => simp at hmem
  | cons e rest ih =>
    obtain ⟨k', v'⟩ := e
    simp only [List.map_cons, List.nodup_cons] at hnd
    rcases List.mem_cons.mp hmem with heq | hin
    · injection heq with h1 h2
      subst h1
      subst h2
      simp [StdMap.find]
    · have hne : ¬ k' = k := by
        intro e
        subst e
        exact hnd.1 (List.mem_map.mpr ⟨(k', v), hin, rfl⟩)
      simp only [StdMap.find, hne, if_false]
      exact ih hnd.2 hin

/-- One `LogService::dispatch` of a live record pooled under its own key, with all that
it leaves unchanged. -/
theorem LogService.dispatch_owned_frame (p : Ptr) (w : World) (r : logger)
    (hpool : w.pooled r.thread_ r.level_ = some p) (hlive : StdMap.find p w.heap = some r)
    (hh : ∀ h ∈ w.handlers, ∀ a, h ≠ LogHandler.faulty a) :
    ∃ w1 : World, LogService.dispatch p w = Outcome.ok () w1 ∧
      w1.delivered = w.delivered ++ w.handlers.map (fun h => (h, r)) ∧
      w1.handlers = w.handlers ∧ w1.loggedlevel_ = w.loggedlevel_ ∧
      w1.heap = StdMap.erase p w.heap ∧
      w1.pooled r.thread_ r.level_ = none ∧
      (∀ id : ks_thread_id, id ≠ r.thread_ → StdMap.find id w1.pool_ = StdMap.find id w.pool_) ∧
      (∀ level : LogLevel, level ≠ r.level_ →
        w1.pooled r.thread_ level = w.pooled r.thread_ level) := by
  obtain ⟨tlogger, h1, h2⟩ := World.pooled_some hpool
  obtain ⟨w0, e0, a1, a2, a3, a4, a5⟩ :=
    LogService.handlers_then_clean w.handlers p r w hlive hh
  have hc := LogService.clean_owned p w0 r tlogger (by rw [a1]; exact hlive)
    (by rw [a2]; exact h1) h2
  refine ⟨{ w0 with pool_ := StdMap.assign r.thread_ (StdMap.erase r.level_ tlogger) w0.pool_,
                     heap := StdMap.erase p w0.heap }, ?_, a5, a3, a4, ?_, ?_, ?_, ?_⟩
  · unfold LogService.dispatch
    rw [e0, hc]
  · show StdMap.erase p w0.heap = _
    rw [a1]
  · exact World.pooled_after_erase w0 r.thread_ r.level_ tlogger _
  · intro id hid
    show StdMap.find id (StdMap.assign r.thread_ _ w0.pool_) = _
    rw [StdMap.find_assign_other _ _ _ _ hid, a2]
  · intro level hl
    simp [World.pooled, StdMap.find_assign_same, StdMap.find_erase_other _ _ _ hl, h1]

/-- The loop of `clean(thread_id)` over entries of the inner map of thread `id`, each a
live record pooled under its own key. -/
theorem LogService.drain_thread (id : ks_thread_id) (es : List (LogLevel × Ptr)) :
    ∀ w : World, (es.map Prod.fst).Nodup →
    (∀ e ∈ es, w.pooled id e.1 = some e.2 ∧
      ∃ r : logger, StdMap.find e.2 w.heap = some r ∧ r.thread_ = id ∧ r.level_ = e.1) →
    (∀ h ∈ w.handlers, ∀ a, h ≠ LogHandler.faulty a) →
    ∃ w1 : World, finalizeEach LogService.dispatch (es.map Prod.snd) w = Outcome.ok () w1 ∧
      w1.delivered = w.delivered ++ deliveries w.handlers w.heap (es.map Prod.snd) ∧
      w1.handlers = w.handlers ∧ w1.loggedlevel_ = w.loggedlevel_ ∧
      (∀ e ∈ es, w1.pooled id e.1 = none ∧ StdMap.find e.2 w1.heap = none) ∧
      (∀ id2 : ks_thread_id, id2 ≠ id → StdMap.find id2 w1.pool_ = StdMap.find id2 w.pool_) ∧
      (∀ level : LogLevel, level ∉ es.map Prod.fst → w1.pooled id level = w.pooled id level) ∧
      (∀ q : Ptr, q ∉ es.map Prod.snd → StdMap.find q w1.heap = StdMap.find q w.heap) := by
  induction es with
  | nil =>
    intro w _ _ _
    refine ⟨w, rfl, by simp [deliveries], rfl, rfl, ?_, fun _ _ => rfl, fun _ _ => rfl,
      fun _ _ => rfl⟩
    intro e he
    simp at he
  | cons e rest ih =>
    intro w hnd hown hh
    obtain ⟨l, p⟩ := e
    simp only [List.map_cons, List.nodup_cons] at hnd
    obtain ⟨hp1, r, hr, hrt, hrl⟩ := hown (l, p) (List.mem_cons_self _ _)
    simp only at hp1 hr hrl
    subst hrt
    subst hrl
    obtain ⟨wa, ea, a1, a2, a3, a4, a5, a6, a7⟩ :=
      LogService.dispatch_owned_frame p w r hp1 hr hh
    have hlev : ∀ e2 ∈ rest, e2.1 ≠ r.level_ := by
      intro e2 he2 heq
      exact hnd.1 (List.mem_map.mpr ⟨e2, he2, heq⟩)
    have hptr : ∀ e2 ∈ rest, e2.2 ≠ p := by
      intro e2 he2 heq
      obtain ⟨_, r2, hr2, _, hr2l⟩ := hown e2 (List.mem_cons_of_mem _ he2)
      rw [heq, hr] at hr2
      injection hr2 with hr2
      subst hr2
      exact hlev e2 he2 hr2l.symm
    have hheap : ∀ e2 ∈ rest, StdMap.find e2.2 wa.heap = StdMap.find e2.2 w.heap := by
      intro e2 he2
      rw [a4]
      exact StdMap.find_erase_other _ _ _ (hptr e2 he2)
    obtain ⟨w1, e1, b1, b2, b3, b4, b5, b6, b7⟩ := ih wa hnd.2
      (by
        intro e2 he2
        obtain ⟨hq1, r2, hr2, hq2, hq3⟩ := hown e2 (List.mem_cons_of_mem _ he2)
        refine ⟨?_, r2, ?_, hq2, hq3⟩
        · rw [a7 e2.1 (hlev e2 he2)]
          exact hq1
        · rw [hheap e2 he2]
          exact hr2)
      (by rw [a2]; exact hh)
    have hpn : p ∉ rest.map Prod.snd := by
      intro hmem
      obtain ⟨e2, he2, heq⟩ := List.mem_map.mp hmem
      exact hptr e2 he2 heq
    refine ⟨w1, ?_, ?_, b2.trans a2, b3.trans a3, ?_, ?_, ?_, ?_⟩
    · simp only [List.map_cons, finalizeEach, ea]
      exact e1
    · rw [b1, a1, a2, deliveries_congr _ wa.heap w.heap (rest.map Prod.snd)
        (by
          intro q hq
          obtain ⟨e2, he2, heq⟩ := List.mem_map.mp hq
          rw [← heq]
          exact hheap e2 he2)]
      simp [deliveries, hr]
    · intro e2 he2
      rcases List.mem_cons.mp he2 with heq | hin
      · subst heq
        refine ⟨?_, ?_⟩
        · rw [b6 r.level_ hnd.1]
          exact a5
        · rw [b7 p hpn, a4]
          exact StdMap.find_erase_same _ _
      · exact b4 e2 hin
    · intro id2 hid2
      rw [b5 id2 hid2, a6 id2 hid2]
    · intro level hlevel
      simp only [List.map_cons, List.mem_cons, not_or] at hlevel
      rw [b6 level hlevel.2, a7 level hlevel.1]
    · intro q hq
      simp only [List.map_cons, List.mem_cons, not_or] at hq
      rw [b7 q hq.2, a4]
      exact StdMap.find_erase_other _ _ _ hq.1

end ks

namespace ks

/-- C17. `LogService::clean(thread_id)` with handlers that return normally.  If the pool
has no entry for the thread the call returns the state unchanged.  If it has one, whose
records are live and pooled under their own keys, the call returns; the deliveries it
adds are, record by record in the order of the inner map, one delivery of that record
to every registered handler, so each record of the thread is dispatched exactly once
and no other record is; afterwards the pool has no entry for the thread and those
records are released, while the pool entry of every other thread and every other
record are unchanged. -/
theorem LogService.clean_thread_drains_one_thread (id : ks_thread_id) (w : World)
    (hh : ∀ h ∈ w.handlers, ∀ a, h ≠ LogHandler.faulty a) :
    (StdMap.find id w.pool_ = none → LogService.clean_thread id w = Outcome.ok () w) ∧
    (∀ tlogger : StdMap LogLevel Ptr, StdMap.find id w.pool_ = some tlogger →
      (tlogger.map Prod.fst).Nodup →
      (∀ e ∈ tlogger,
        ∃ r : logger, StdMap.find e.2 w.heap = some r ∧ r.thread_ = id ∧ r.level_ = e.1) →
      ∃ w1 : World, LogService.clean_thread id w = Outcome.ok () w1 ∧
        w1.delivered = w.delivered ++ deliveries w.handlers w.heap (tlogger.map Prod.snd) ∧
        StdMap.find id w1.pool_ = none ∧
        (∀ level : LogLevel, w1.pooled id level = none) ∧
        (∀ e ∈ tlogger, StdMap.find e.2 w1.heap = none) ∧
        (∀ id2 : ks_thread_id, id2 ≠ id →
          StdMap.find id2 w1.pool_ = StdMap.find id2 w.pool_) ∧
        (∀ q : Ptr, q ∉ tlogger.map Prod.snd →
          StdMap.find q w1.heap = StdMap.find q w.heap) ∧
        w1.handlers = w.handlers) := by
  refine ⟨?_, ?_⟩
  · intro hnone
    simp [LogService.clean_thread, hasKeyInMap_eq, hnone]
  · intro tlogger hfind hnd hown
    obtain ⟨wd, ed, d1, d2, _, d4, d5, _, d7⟩ := LogService.drain_thread id tlogger w hnd
      (by
        intro e he
        refine ⟨?_, hown e he⟩
        simp only [World.pooled, hfind]
        exact StdMap.find_of_mem tlogger hnd e.1 e.2 he)
      hh
    have hgone : StdMap.find id (StdMap.erase id wd.pool_) = none :=
      StdMap.find_erase_same id wd.pool_
    refine ⟨{ wd with pool_ := StdMap.erase id wd.pool_ }, ?_, d1, hgone, ?_, ?_, ?_, d7, d2⟩
    · simp only [LogService.clean_thread, hasKeyInMap_eq, hfind, Option.isSome_some, if_true,
        Option.getD_some, clear_byvalue, clear_byvalue.loop_eq_finalizeEach, ed]
    · intro level
      simp only [World.pooled, hgone]
    · intro e he
      exact (d4 e he).2
    · intro id2 hid2
      show StdMap.find id2 (StdMap.erase id wd.pool_) = _
      rw [StdMap.find_erase_other _ _ _ hid2, d5 id2 hid2]

/-- Witness for C17: thread 1 of `threadsWorld`, which pools the records at addresses
10 and 11 for thread 1 and the record at address 12 for thread 2. -/
theorem LogService.clean_thread_drains_one_thread_witness :
    ∃ w1 : World, LogService.clean_thread 1 threadsWorld = Outcome.ok () w1 ∧
      w1.delivered = threadsWorld.delivered ++
        deliveries threadsWorld.handlers threadsWorld.heap [10, 11] ∧
      StdMap.find 1 w1.pool_ = none ∧
      (∀ level : LogLevel, w1.pooled 1 level = none) ∧
      (∀ e ∈ [(LogLevel.Info, 10), (LogLevel.Error, 11)], StdMap.find e.2 w1.heap = none) ∧
      (∀ id2 : ks_thread_id, id2 ≠ 1 →
        StdMap.find id2 w1.pool_ = StdMap.find id2 threadsWorld.pool_) ∧
      (∀ q : Ptr, q ∉ [10, 11] → StdMap.find q w1.heap = StdMap.find q threadsWorld.heap) ∧
      w1.handlers = threadsWorld.handlers :=
  (LogService.clean_thread_drains_one_thread 1 threadsWorld
    (by
      intro h hmem a
      have hm : h = LogHandler.service ∨ h = LogHandler.capture 7 := by
        have : threadsWorld.handlers = [LogHandler.service, LogHandler.capture 7] := by decide
        rw [this] at hmem
        simpa using hmem
      rcases hm with rfl | rfl <;> simp)).2
    [(LogLevel.Info, 10), (LogLevel.Error, 11)] (by decide) (by decide) (by decide)

end ks

namespace ks

/-- C18. On `consoleWorld` (only the service itself registered, one pooled record with
the text "abc", minimum level `Info`) the destructor first removes the service from its
own handler list and only then drains the pool: the record is dispatched to an empty
handler list and released, the pool ends empty, and nothing at all is written to either
stream.  Dispatching the same record before destruction would have rendered "t: abc" on
the standard stream. -/
theorem LogService.destroy_discards_pooled_text :
    LogService.destroy consoleWorld = Outcome.ok ()
      { consoleWorld with handlers := [], pool_ := [], heap := [] } ∧
    (LogService.destroy consoleWorld).state.cout = consoleWorld.cout ∧
    (LogService.destroy consoleWorld).state.cerr = consoleWorld.cerr ∧
    (LogService.destroy consoleWorld).state.delivered = [] ∧
    (LogService.dispatch 10 consoleWorld).state.cout.text = "t: abc" := by
  decide

end ks

/-! ## The pool invariant -/

namespace ks

theorem LogService.handleLog_cases (msg : Ptr) (w : World) :
    LogService.handleLog msg w = Outcome.fail Fault.undefined_behaviour w ∨
    ∃ w1 : World, LogService.handleLog msg w = Outcome.ok () w1 ∧ w1.heap = w.heap ∧
      w1.pool_ = w.pool_ ∧ w1.handlers = w.handlers ∧ w1.delivered = w.delivered ∧
      w1.loggedlevel_ = w.loggedlevel_ := by
  cases hf : StdMap.find msg w.heap with
  | none =>
    left
    simp only [LogService.handleLog, hf]
  | some m =>
    right
    by_cases h1 : m.level_.toNat ≥ w.loggedlevel_.toNat
    · by_cases h2 : m.level_.toNat ≥ LogLevel.Warning.toNat
      · simp only [LogService.handleLog, hf, h1, h2, if_true]
        exact ⟨_, rfl, rfl, rfl, rfl, rfl, rfl⟩
      · simp only [LogService.handleLog, hf, h1, h2, if_true, if_false]
        exact ⟨_, rfl, rfl, rfl, rfl, rfl, rfl⟩
    · simp only [LogService.handleLog, hf, h1, if_false]
      exact ⟨_, rfl, rfl, rfl, rfl, rfl, rfl⟩

theorem World.handleLog_frame (h : LogHandler) (msg : Ptr) (w : World) :
    (World.handleLog h msg w).state.heap = w.heap ∧
    (World.handleLog h msg w).state.pool_ = w.pool_ ∧
    (World.handleLog h msg w).state.handlers = w.handlers := by
  cases hf : StdMap.find msg w.heap with
  | none =>
    have e : World.handleLog h msg w = Outcome.fail Fault.undefined_behaviour w := by
      simp only [World.handleLog, hf]
    rw [e]
    exact ⟨rfl, rfl, rfl⟩
  | some m =>
    cases h with
    | service =>
      have e : World.handleLog LogHandler.service msg w = LogService.handleLog msg
          { w with delivered := w.delivered ++ [(LogHandler.service, m)] } := by
        simp only [World.handleLog, hf]
      rw [e]
      rcases LogService.handleLog_cases msg
          { w with delivered := w.delivered ++ [(LogHandler.service, m)] } with e2 | ⟨w1, e2, a1, a2, a3, _, _⟩
      · rw [e2]
        exact ⟨rfl, rfl, rfl⟩
      · rw [e2]
        exact ⟨a1, a2, a3⟩
    | capture a =>
      have e : World.handleLog (LogHandler.capture a) msg w = Outcome.ok ()
          { w with delivered := w.delivered ++ [(LogHandler.capture a, m)] } := by
        simp only [World.handleLog, hf]
      rw [e]
      exact ⟨rfl, rfl, rfl⟩
    | faulty a =>
      have e : World.handleLog (LogHandler.faulty a) msg w =
          Outcome.fail (Fault.handler_failure a)
            { w with delivered := w.delivered ++ [(LogHandler.faulty a, m)] } := by
        simp only [World.handleLog, hf]
      rw [e]
      exact ⟨rfl, rfl, rfl⟩

theorem PoolInv.of_eq {w w2 : World} (hheap : w2.heap = w.heap) (hpool : w2.pool_ = w.pool_)
    (h : PoolInv w) : PoolInv w2 := by
  intro id level p hp
  have hp2 : w.pooled id level = some p := by
    simpa [World.pooled, hpool] using hp
  obtain ⟨r, hr, h1, h2⟩ := h id level p hp2
  exact ⟨r, by rw [hheap]; exact hr, h1, h2⟩

end ks

namespace ks

theorem LogLevel.toNat_injective : Function.Injective LogLevel.toNat := by
  intro a b h
  cases a <;> cases b <;> simp [LogLevel.toNat] at h <;> rfl

theorem StdMap.mem_assign {K V : Type} [DecidableEq K] [KeyRank K] (k : K) (v : V)
    (m : StdMap K V) (e : K × V) (he : e ∈ StdMap.assign k v m) : e = (k, v) ∨ e ∈ m := by
  induction m with
  | nil =>
    simp only [StdMap.assign, List.mem_singleton] at he
    exact Or.inl he
  | cons x rest ih =>
    obtain ⟨k', v'⟩ := x
    by_cases h1 : k' = k
    · simp only [StdMap.assign, h1, if_true, List.mem_cons] at he
      rcases he with he | he
      · exact Or.inl he
      · exact Or.inr (List.mem_cons_of_mem _ he)
    · by_cases h2 : KeyRank.rank k < KeyRank.rank k'
      · simp only [StdMap.assign, h1, h2, if_true, if_false, List.mem_cons] at he
        rcases he with he | he | he
        · exact Or.inl he
        · exact Or.inr (he ▸ List.mem_cons_self _ _)
        · exact Or.inr (List.mem_cons_of_mem _ he)
      · simp only [StdMap.assign, h1, h2, if_false, List.mem_cons] at he
        rcases he with he | he
        · exact Or.inr (he ▸ List.mem_cons_self _ _)
        · rcases ih he with h | h
          · exact Or.inl h
          · exact Or.inr (List.mem_cons_of_mem _ h)

theorem StdMap.mem_erase {K V : Type} [DecidableEq K] (k : K) (m : StdMap K V) (e : K × V)
    (he : e ∈ StdMap.erase k m) : e ∈ m :=
  (List.mem_filter.mp he).1

theorem StdMap.find_mem {K V : Type} [DecidableEq K] (k : K) (v : V) (m : StdMap K V)
    (h : StdMap.find k m = some v) : (k, v) ∈ m := by
  induction m with
  | nil => simp [StdMap.find] at h
  | cons x rest ih =>
    obtain ⟨k', v'⟩ := x
    by_cases h1 : k' = k
    · simp only [StdMap.find, h1, if_true, Option.some.injEq] at h
      rw [h1, h]
      exact List.mem_cons_self _ _
    · simp only [StdMap.find, h1, if_false] at h
      exact List.mem_cons_of_mem _ (ih h)

theorem StdMap.Ordered.assign {K V : Type} [DecidableEq K] [KeyRank K]
    (hinj : Function.Injective (KeyRank.rank : K → Nat)) (k : K) (v : V) (m : StdMap K V)
    (h : StdMap.Ordered m) : StdMap.Ordered (StdMap.assign k v m) := by
  induction m with
  | nil => simp [StdMap.assign, StdMap.Ordered]
  | cons x rest ih =>
    obtain ⟨k', v'⟩ := x
    unfold StdMap.Ordered at h ih ⊢
    rw [List.pairwise_cons] at h
    by_cases h1 : k' = k
    · subst h1
      simp only [StdMap.assign, if_true]
      rw [List.pairwise_cons]
      exact h
    · by_cases h2 : KeyRank.rank k < KeyRank.rank k'
      · simp only [StdMap.assign, h1, h2, if_true, if_false]
        rw [List.pairwise_cons, List.pairwise_cons]
        refine ⟨?_, h⟩
        intro b hb
        rcases List.mem_cons.mp hb with hb | hb
        · rw [hb]
          exact h2
        · exact lt_trans h2 (h.1 b hb)
      · simp only [StdMap.assign, h1, h2, if_false]
        rw [List.pairwise_cons]
        refine ⟨?_, ih h.2⟩
        intro b hb
        rcases StdMap.mem_assign k v rest b hb with hb | hb
        · rw [hb]
          have hne : KeyRank.rank k' ≠ KeyRank.rank k := fun e => h1 (hinj e)
          show KeyRank.rank k' < KeyRank.rank k
          omega
        · exact h.1 b hb

theorem StdMap.Ordered.erase {K V : Type} [DecidableEq K] [KeyRank K] (k : K) (m : StdMap K V)
    (h : StdMap.Ordered m) : StdMap.Ordered (StdMap.erase k m) :=
  List.Pairwise.sublist (List.filter_sublist m) h

theorem StdMap.Ordered.nodup_keys {K V : Type} [KeyRank K] (m : StdMap K V)
    (h : StdMap.Ordered m) : (m.map Prod.fst).Nodup := by
  unfold StdMap.Ordered at h
  rw [List.Nodup, List.pairwise_map]
  exact List.Pairwise.imp (fun {a b} hab e => by rw [e] at hab; exact lt_irrefl _ hab) h

end ks

namespace ks

theorem LogService.clean_cases (msg : Ptr) (w : World) :
    (∃ f : Fault, LogService.clean msg w = Outcome.fail f w) ∨
    ∃ (m : logger) (tlogger : StdMap LogLevel Ptr), StdMap.find msg w.heap = some m ∧
      StdMap.find m.thread_ w.pool_ = some tlogger ∧
      LogService.clean msg w = Outcome.ok ()
        { w with pool_ := StdMap.assign m.thread_ (StdMap.erase m.level_ tlogger) w.pool_,
                 heap := StdMap.erase msg w.heap } := by
  cases hf : StdMap.find msg w.heap with
  | none =>
    left
    exact ⟨Fault.undefined_behaviour, by simp only [LogService.clean, hf]⟩
  | some m =>
    cases ht : StdMap.find m.thread_ w.pool_ with
    | none =>
      left
      exact ⟨cleanError, by simp [LogService.clean, hf, hasKeyInMap_eq, ht]⟩
    | some tlogger =>
      cases hl : StdMap.find m.level_ tlogger with
      | none =>
        left
        exact ⟨cleanError, by simp [LogService.clean, hf, hasKeyInMap_eq, ht, hl]⟩
      | some p =>
        cases hp : StdMap.find p w.heap with
        | none =>
          left
          exact ⟨Fault.undefined_behaviour, by
            simp [LogService.clean, hf, hasKeyInMap_eq, ht, hl, hp]⟩
        | some pooled =>
          by_cases htitle : m.title_ = pooled.title_
          · right
            exact ⟨m, tlogger, rfl, ht, by
              simp [LogService.clean, hf, hasKeyInMap_eq, ht, hl, hp, htitle]⟩
          · left
            exact ⟨cleanError, by
              simp [LogService.clean, hf, hasKeyInMap_eq, ht, hl, hp, htitle]⟩

theorem PoolInv.clean_step (w : World) (msg : Ptr) (m : logger) (tlogger : StdMap LogLevel Ptr)
    (hm : StdMap.find msg w.heap = some m) (ht : StdMap.find m.thread_ w.pool_ = some tlogger)
    (h : PoolInv w) :
    PoolInv { w with pool_ := StdMap.assign m.thread_ (StdMap.erase m.level_ tlogger) w.pool_,
                     heap := StdMap.erase msg w.heap } := by
  intro id level p hp
  by_cases hid : id = m.thread_
  · subst hid
    have hp2 : StdMap.find level (StdMap.erase m.level_ tlogger) = some p := by
      simpa [World.pooled, StdMap.find_assign_same] using hp
    by_cases hl : level = m.level_
    · subst hl
      rw [StdMap.find_erase_same] at hp2
      cases hp2
    · rw [StdMap.find_erase_other _ _ _ hl] at hp2
      have hp3 : w.pooled m.thread_ level = some p := by
        simp only [World.pooled, ht]
        exact hp2
      obtain ⟨r, hr, h1, h2⟩ := h m.thread_ level p hp3
      have hne : p ≠ msg := by
        intro e
        rw [e, hm] at hr
        injection hr with hr
        exact hl (by rw [← h2, hr])
      exact ⟨r, by
        show StdMap.find p (StdMap.erase msg w.heap) = some r
        rw [StdMap.find_erase_other _ _ _ hne]
        exact hr, h1, h2⟩
  · have hp3 : w.pooled id level = some p := by
      simpa [World.pooled, StdMap.find_assign_other _ _ _ _ hid] using hp
    obtain ⟨r, hr, h1, h2⟩ := h id level p hp3
    have hne : p ≠ msg := by
      intro e
      rw [e, hm] at hr
      injection hr with hr
      exact hid (by rw [← h1, hr])
    exact ⟨r, by
      show StdMap.find p (StdMap.erase msg w.heap) = some r
      rw [StdMap.find_erase_other _ _ _ hne]
      exact hr, h1, h2⟩

theorem PoolOrdered.assign_thread (w : World) (id : ks_thread_id) (inner : StdMap LogLevel Ptr)
    (heap : StdMap Ptr logger) (hi : StdMap.Ordered inner) (h : PoolOrdered w) :
    PoolOrdered { w with pool_ := StdMap.assign id inner w.pool_, heap := heap } := by
  refine ⟨StdMap.Ordered.assign (fun a b e => e) id inner w.pool_ h.1, ?_⟩
  intro e he
  rcases StdMap.mem_assign id inner w.pool_ e he with he | he
  · rw [he]
    exact hi
  · exact h.2 e he

theorem PoolOrdered.inner (w : World) (id : ks_thread_id) (tlogger : StdMap LogLevel Ptr)
    (ht : StdMap.find id w.pool_ = some tlogger) (h : PoolOrdered w) : StdMap.Ordered tlogger :=
  h.2 (id, tlogger) (StdMap.find_mem id tlogger w.pool_ ht)

theorem StdMap.find_erase_none {K V : Type} [DecidableEq K] (k q : K) (m : StdMap K V)
    (h : StdMap.find q m = none) : StdMap.find q (StdMap.erase k m) = none := by
  by_cases e : q = k
  · rw [e]
    exact StdMap.find_erase_same k m
  · rw [StdMap.find_erase_other _ _ _ e]
    exact h

/-- The invariant carried through the calls: both levels of the pool are ordered, every
pooled record is live under its own key, and no address that is unused in `w0` has
come into use. -/
theorem LogService.clean_keeps (w0 : World) (msg : Ptr) (w : World)
    (h : PoolOrdered w ∧ PoolInv w ∧
      ∀ q : Ptr, StdMap.find q w0.heap = none → StdMap.find q w.heap = none) :
    PoolOrdered (LogService.clean msg w).state ∧ PoolInv (LogService.clean msg w).state ∧
      ∀ q : Ptr, StdMap.find q w0.heap = none →
        StdMap.find q (LogService.clean msg w).state.heap = none := by
  rcases LogService.clean_cases msg w with ⟨f, e⟩ | ⟨m, tlogger, hm, ht, e⟩
  · rw [e]
    exact h
  · rw [e]
    refine ⟨?_, PoolInv.clean_step w msg m tlogger hm ht h.2.1, ?_⟩
    · exact PoolOrdered.assign_thread w m.thread_ _ _
        (StdMap.Ordered.erase _ _ (PoolOrdered.inner w m.thread_ tlogger ht h.1)) h.1
    · intro q hq
      exact StdMap.find_erase_none msg q w.heap (h.2.2 q hq)

theorem World.handleLog_keeps (w0 : World) (hd : LogHandler) (msg : Ptr) (w : World)
    (h : PoolOrdered w ∧ PoolInv w ∧
      ∀ q : Ptr, StdMap.find q w0.heap = none → StdMap.find q w.heap = none) :
    PoolOrdered (World.handleLog hd msg w).state ∧ PoolInv (World.handleLog hd msg w).state ∧
      ∀ q : Ptr, StdMap.find q w0.heap = none →
        StdMap.find q (World.handleLog hd msg w).state.heap = none := by
  obtain ⟨a1, a2, _⟩ := World.handleLog_frame hd msg w
  refine ⟨?_, PoolInv.of_eq a1 a2 h.2.1, ?_⟩
  · unfold PoolOrdered
    rw [a2]
    exact h.1
  · rw [a1]
    exact h.2.2

theorem LogService.dispatch_keeps (w0 : World) (msg : Ptr) (w : World)
    (h : PoolOrdered w ∧ PoolInv w ∧
      ∀ q : Ptr, StdMap.find q w0.heap = none → StdMap.find q w.heap = none) :
    PoolOrdered (LogService.dispatch msg w).state ∧ PoolInv (LogService.dispatch msg w).state ∧
      ∀ q : Ptr, StdMap.find q w0.heap = none →
        StdMap.find q (LogService.dispatch msg w).state.heap = none :=
  LogHandlerManager.dispatch_preserves
    (fun s => PoolOrdered s ∧ PoolInv s ∧
      ∀ q : Ptr, StdMap.find q w0.heap = none → StdMap.find q s.heap = none)
    World.handleLog LogService.clean (World.handleLog_keeps w0) (LogService.clean_keeps w0)
    w.handlers msg w h

theorem LogService.clean_thread_keeps (w0 : World) (id : ks_thread_id) (w : World)
    (h : PoolOrdered w ∧ PoolInv w ∧
      ∀ q : Ptr, StdMap.find q w0.heap = none → StdMap.find q w.heap = none) :
    PoolOrdered (LogService.clean_thread id w).state ∧
    PoolInv (LogService.clean_thread id w).state ∧
      ∀ q : Ptr, StdMap.find q w0.heap = none →
        StdMap.find q (LogService.clean_thread id w).state.heap = none := by
  unfold LogService.clean_thread
  by_cases hk : hasKeyInMap id w.pool_ = true
  · simp only [hk, if_true, clear_byvalue, clear_byvalue.loop_eq_finalizeEach]
    have hloop := finalizeEach_preserves
      (fun s => PoolOrdered s ∧ PoolInv s ∧
        ∀ q : Ptr, StdMap.find q w0.heap = none → StdMap.find q s.heap = none)
      LogService.dispatch (LogService.dispatch_keeps w0)
      (((w.pool_.find id).getD []).map Prod.snd) w h
    cases hfe : finalizeEach LogService.dispatch (((w.pool_.find id).getD []).map Prod.snd) w with
    | ok u w1 =>
      rw [hfe] at hloop
      simp only [Outcome.state] at hloop ⊢
      obtain ⟨o1, o2, o3⟩ := hloop
      refine ⟨⟨StdMap.Ordered.erase id w1.pool_ o1.1, ?_⟩, ?_, o3⟩
      · intro e he
        exact o1.2 e (StdMap.mem_erase id w1.pool_ e he)
      · intro id2 level p hp
        have hp2 : w1.pooled id2 level = some p := by
          by_cases hid : id2 = id
          · subst hid
            simp [World.pooled, StdMap.find_erase_same] at hp
          · simpa [World.pooled, StdMap.find_erase_other _ _ _ hid] using hp
        exact o2 id2 level p hp2
    | fail e w1 =>
      rw [hfe] at hloop
      exact hloop
  · simp only [hk, if_false]
    exact h

theorem LogService.clean_all_keeps (w0 : World) (w : World)
    (h : PoolOrdered w ∧ PoolInv w ∧
      ∀ q : Ptr, StdMap.find q w0.heap = none → StdMap.find q w.heap = none) :
    PoolOrdered (LogService.clean_all w).state ∧ PoolInv (LogService.clean_all w).state ∧
      ∀ q : Ptr, StdMap.find q w0.heap = none →
        StdMap.find q (LogService.clean_all w).state.heap = none := by
  unfold LogService.clean_all clear_bykey
  rw [clear_bykey.loop_runs_finalizeEach]
  exact finalizeEach_preserves
    (fun s => PoolOrdered s ∧ PoolInv s ∧
      ∀ q : Ptr, StdMap.find q w0.heap = none → StdMap.find q s.heap = none)
    LogService.clean_thread (LogService.clean_thread_keeps w0) _ w h

end ks

namespace ks

theorem LogHandlerManager.dispatch_ok_clean {σ H M : Type} (f : H → M → σ → Outcome σ Unit)
    (g : M → σ → Outcome σ Unit) (m : M) (hs : List H) :
    ∀ (s s2 : σ) (u : Unit), LogHandlerManager.dispatch f g hs m s = Outcome.ok u s2 →
      ∃ s0 : σ, g m s0 = Outcome.ok u s2 := by
  induction hs with
  | nil =>
    intro s s2 u h
    exact ⟨s, h⟩
  | cons x rest ih =>
    intro s s2 u h
    simp only [LogHandlerManager.dispatch] at h
    cases hf : f x m s with
    | ok v s1 =>
      rw [hf] at h
      exact ih s1 s2 u h
    | fail e s1 =>
      rw [hf] at h
      cases h

theorem LogService.dispatch_ok_released (p : Ptr) (w w2 : World) (u : Unit)
    (h : LogService.dispatch p w = Outcome.ok u w2) : StdMap.find p w2.heap = none := by
  obtain ⟨s0, hc⟩ := LogHandlerManager.dispatch_ok_clean World.handleLog LogService.clean p
    w.handlers w w2 u h
  rcases LogService.clean_cases p s0 with ⟨f, e⟩ | ⟨m, tlogger, _, _, e⟩
  · rw [e] at hc
    cases hc
  · rw [e] at hc
    injection hc with _ hw
    rw [← hw]
    exact StdMap.find_erase_same p s0.heap

theorem StdMap.Ordered.nil {K V : Type} [KeyRank K] : StdMap.Ordered ([] : StdMap K V) :=
  List.Pairwise.nil

theorem PoolOrdered.create_keeps_order (w : World) (newlogger : Ptr) (id : ks_thread_id) (r : logger)
    (level : LogLevel) (h : PoolOrdered w) :
    PoolOrdered { w with
      heap := StdMap.assign newlogger r w.heap,
      pool_ := StdMap.assign id
        (StdMap.assign level newlogger ((StdMap.find id w.pool_).getD [])) w.pool_ } := by
  apply PoolOrdered.assign_thread w id _ _ _ h
  apply StdMap.Ordered.assign LogLevel.toNat_injective
  cases hf : StdMap.find id w.pool_ with
  | none => exact StdMap.Ordered.nil
  | some t => exact PoolOrdered.inner w id t hf h

theorem PoolInv.create_keeps_inv (w : World) (newlogger : Ptr) (id : ks_thread_id) (title : String)
    (level : LogLevel) (autoflush : Bool) (hfresh : StdMap.find newlogger w.heap = none)
    (h : PoolInv w) :
    PoolInv { w with
      heap := StdMap.assign newlogger (logger.mk_new id title level autoflush) w.heap,
      pool_ := StdMap.assign id
        (StdMap.assign level newlogger ((StdMap.find id w.pool_).getD [])) w.pool_ } := by
  intro id2 level2 p hp
  have hold : ∀ (q : Ptr), w.pooled id2 level2 = some q →
      ∃ r : logger, StdMap.find q (StdMap.assign newlogger
        (logger.mk_new id title level autoflush) w.heap) = some r ∧
        r.thread_ = id2 ∧ r.level_ = level2 := by
    intro q hq
    obtain ⟨r, hr, h1, h2⟩ := h id2 level2 q hq
    have hne : q ≠ newlogger := by
      intro e
      rw [e, hfresh] at hr
      cases hr
    exact ⟨r, by rw [StdMap.find_assign_other _ _ _ _ hne]; exact hr, h1, h2⟩
  by_cases hid : id2 = id
  · subst hid
    have hp2 : StdMap.find level2
        (StdMap.assign level newlogger ((StdMap.find id2 w.pool_).getD [])) = some p := by
      simpa [World.pooled, StdMap.find_assign_same] using hp
    by_cases hl : level2 = level
    · subst hl
      rw [StdMap.find_assign_same] at hp2
      injection hp2 with hp2
      subst hp2
      exact ⟨logger.mk_new id2 title level2 autoflush, StdMap.find_assign_same _ _ _, rfl, rfl⟩
    · rw [StdMap.find_assign_other _ _ _ _ hl] at hp2
      apply hold p
      cases hf : StdMap.find id2 w.pool_ with
      | none =>
        rw [hf] at hp2
        simp [StdMap.find] at hp2
      | some t =>
        rw [hf] at hp2
        simp only [World.pooled, hf]
        exact hp2
  · apply hold p
    simpa [World.pooled, StdMap.find_assign_other _ _ _ _ hid] using hp

theorem LogService.create_keeps (newlogger : Ptr) (id : ks_thread_id) (title : String)
    (level : LogLevel) (autoflush : Bool) (w : World)
    (hfresh : StdMap.find newlogger w.heap = none) (h : PoolOrdered w ∧ PoolInv w) :
    PoolOrdered (LogService.create newlogger id title level autoflush w).state ∧
    PoolInv (LogService.create newlogger id title level autoflush w).state := by
  simp only [LogService.create, Outcome.state]
  exact ⟨PoolOrdered.create_keeps_order w newlogger id _ level h.1,
    PoolInv.create_keeps_inv w newlogger id title level autoflush hfresh h.2⟩

theorem LogService.get_keeps (newlogger : Ptr) (id : ks_thread_id) (title : String)
    (level : LogLevel) (autoflush : Bool) (w : World)
    (hfresh : AllocFresh newlogger id level w) (h : PoolOrdered w ∧ PoolInv w) :
    PoolOrdered (LogService.get newlogger id title level autoflush w).state ∧
    PoolInv (LogService.get newlogger id title level autoflush w).state := by
  cases hfid : StdMap.find id w.pool_ with
  | none =>
    have hnone : w.pooled id level = none := by simp [World.pooled, hfid]
    have hfr : StdMap.find newlogger w.heap = none := by
      rcases hfresh with hf | hf
      · exact hf
      · rw [hnone] at hf
        cases hf
    have e : LogService.get newlogger id title level autoflush w =
        LogService.create newlogger id title level autoflush
          { w with pool_ := StdMap.assign id [] w.pool_ } := by
      simp [LogService.get, hfid, StdMap.find_assign_same, hasKeyInMap_eq, StdMap.find]
    rw [e]
    apply LogService.create_keeps newlogger id title level autoflush
      { w with pool_ := StdMap.assign id [] w.pool_ } hfr
    refine ⟨PoolOrdered.assign_thread w id [] w.heap StdMap.Ordered.nil h.1, ?_⟩
    intro id2 level2 p hp
    apply h.2 id2 level2 p
    by_cases hid : id2 = id
    · subst hid
      simp [World.pooled, StdMap.find_assign_same, StdMap.find] at hp
    · simpa [World.pooled, StdMap.find_assign_other _ _ _ _ hid] using hp
  | some t =>
    have hpooled : w.pooled id level = StdMap.find level t := by simp [World.pooled, hfid]
    cases hl : StdMap.find level t with
    | none =>
      have hfr : StdMap.find newlogger w.heap = none := by
        rcases hfresh with hf | hf
        · exact hf
        · rw [hpooled, hl] at hf
          cases hf
      have e : LogService.get newlogger id title level autoflush w =
          LogService.create newlogger id title level autoflush w := by
        simp [LogService.get, hfid, hasKeyInMap_eq, hl]
      rw [e]
      exact LogService.create_keeps newlogger id title level autoflush w hfr h
    | some p =>
      by_cases ht : title.length = 0
      · have e : LogService.get newlogger id title level autoflush w = Outcome.ok p w := by
          simp [LogService.get, hfid, hasKeyInMap_eq, hl, ht]
        rw [e]
        exact h
      · cases hp : StdMap.find p w.heap with
        | none =>
          have e : LogService.get newlogger id title level autoflush w =
              Outcome.fail Fault.undefined_behaviour w := by
            simp [LogService.get, hfid, hasKeyInMap_eq, hl, ht, hp]
          rw [e]
          exact h
        | some r =>
          by_cases hrt : r.title_ = title
          · have e : LogService.get newlogger id title level autoflush w = Outcome.ok p w := by
              simp [LogService.get, hfid, hasKeyInMap_eq, hl, ht, hp, hrt]
            rw [e]
            exact h
          · have hk := LogService.dispatch_keeps w p w ⟨h.1, h.2, fun _ hq => hq⟩
            cases hd : LogService.dispatch p w with
            | ok u w2 =>
              rw [hd] at hk
              have e : LogService.get newlogger id title level autoflush w =
                  LogService.create newlogger id title level autoflush w2 := by
                simp [LogService.get, hfid, hasKeyInMap_eq, hl, ht, hp, hrt, hd]
              rw [e]
              have hfr : StdMap.find newlogger w2.heap = none := by
                rcases hfresh with hf | hf
                · exact hk.2.2 newlogger hf
                · rw [hpooled, hl] at hf
                  injection hf with hf
                  rw [← hf]
                  exact LogService.dispatch_ok_released p w w2 u hd
              exact LogService.create_keeps newlogger id title level autoflush w2 hfr
                ⟨hk.1, hk.2.1⟩
            | fail f w2 =>
              rw [hd] at hk
              have e : LogService.get newlogger id title level autoflush w =
                  Outcome.fail f w2 := by
                simp [LogService.get, hfid, hasKeyInMap_eq, hl, ht, hp, hrt, hd]
              rw [e]
              exact ⟨hk.1, hk.2.1⟩

end ks

namespace ks

theorem Reachable.keeps (w : World) (h : Reachable w) : PoolOrdered w ∧ PoolInv w := by
  induction h with
  | init cout cerr =>
    refine ⟨⟨StdMap.Ordered.nil, ?_⟩, ?_⟩
    · intro e he
      simp [LogService.init] at he
    · intro id level p hp
      simp [World.pooled, LogService.init, StdMap.find] at hp
  | get w newlogger id title level autoflush _ hfresh ih =>
    exact LogService.get_keeps newlogger id title level autoflush w hfresh ih
  | dispatch w id level p _ _ ih =>
    have hk := LogService.dispatch_keeps w p w ⟨ih.1, ih.2, fun _ hq => hq⟩
    exact ⟨hk.1, hk.2.1⟩
  | clean_thread w id _ ih =>
    have hk := LogService.clean_thread_keeps w id w ⟨ih.1, ih.2, fun _ hq => hq⟩
    exact ⟨hk.1, hk.2.1⟩
  | clean_all w _ ih =>
    have hk := LogService.clean_all_keeps w w ⟨ih.1, ih.2, fun _ hq => hq⟩
    exact ⟨hk.1, hk.2.1⟩
  | addHandler w hd _ ih =>
    exact ⟨ih.1, PoolInv.of_eq rfl rfl ih.2⟩

/-- C19. Pool invariant: in every state of a service reachable from its construction by
`get` (with the address allocation hands out not in use), `dispatch` of a pooled
record, `clean(thread_id)`, `clean()` and handler registration, whether the calls
return or stop, every pooled address is that of a live record whose own thread id and
severity are the key it is pooled under, and the thread map and every severity map are
well-formed maps with one entry per key.  Hence every entry of the pool holds a live
record stored under its own key, and two pooled records with the same thread id and
severity are one and the same pool entry: at most one live pooled record exists for a
(thread id, severity) pair. -/
theorem LogService.pool_invariant (w : World) (h : Reachable w) :
    PoolInv w ∧ PoolOrdered w ∧
    (∀ e ∈ w.pool_, ∀ e2 ∈ e.2, w.pooled e.1 e2.1 = some e2.2 ∧
      ∃ r : logger, StdMap.find e2.2 w.heap = some r ∧ r.thread_ = e.1 ∧ r.level_ = e2.1) ∧
    (∀ (id id2 : ks_thread_id) (level level2 : LogLevel) (p p2 : Ptr) (r r2 : logger),
      w.pooled id level = some p → w.pooled id2 level2 = some p2 →
      StdMap.find p w.heap = some r → StdMap.find p2 w.heap = some r2 →
      r.thread_ = r2.thread_ → r.level_ = r2.level_ →
      id = id2 ∧ level = level2 ∧ p = p2) := by
  obtain ⟨hord, hinv⟩ := Reachable.keeps w h
  refine ⟨hinv, hord, ?_, ?_⟩
  · intro e he e2 he2
    have h1 : StdMap.find e.1 w.pool_ = some e.2 :=
      StdMap.find_of_mem w.pool_ (StdMap.Ordered.nodup_keys _ hord.1) e.1 e.2 he
    have h2 : StdMap.find e2.1 e.2 = some e2.2 :=
      StdMap.find_of_mem e.2 (StdMap.Ordered.nodup_keys _ (hord.2 e he)) e2.1 e2.2 he2
    have h3 : w.pooled e.1 e2.1 = some e2.2 := by
      simp only [World.pooled, h1]
      exact h2
    exact ⟨h3, hinv e.1 e2.1 e2.2 h3⟩
  · intro id id2 level level2 p p2 r r2 hp hp2 hr hr2 ht hl
    obtain ⟨a, ha, a1, a2⟩ := hinv id level p hp
    obtain ⟨b, hb, b1, b2⟩ := hinv id2 level2 p2 hp2
    rw [hr] at ha
    rw [hr2] at hb
    injection ha with ha
    injection hb with hb
    subst ha
    subst hb
    have e1 : id = id2 := by rw [← a1, ← b1, ht]
    have e2 : level = level2 := by rw [← a2, ← b2, hl]
    subst e1
    subst e2
    rw [hp] at hp2
    injection hp2 with hp2
    exact ⟨rfl, rfl, hp2⟩

/-- Witness for C19: the state after the first `get` on a fresh service. -/
theorem LogService.pool_invariant_witness :
    PoolInv firstGetWorld ∧ PoolOrdered firstGetWorld :=
  have hr : Reachable firstGetWorld :=
    Reachable.get (LogService.init ⟨"", 0⟩ ⟨"", 0⟩) 10 1 "t" LogLevel.Info true
      (Reachable.init ⟨"", 0⟩ ⟨"", 0⟩) (Or.inl (by decide))
  ⟨(LogService.pool_invariant firstGetWorld hr).1, (LogService.pool_invariant firstGetWorld hr).2.1⟩

end ks

/-! ## `nanotimer::set_interval` -/

namespace ks

/-- For every value other than one second exactly, `set_interval` stores a normalised
interval of exactly `value` nanoseconds. -/
theorem nanotimer.set_interval_normalised (value : Nat) (hne : value ≠ NSEC_IN_SEC) :
    (nanotimer.set_interval value).normalised ∧
    (nanotimer.set_interval value).nanoseconds = (value : Int) := by
  unfold nanotimer.set_interval timespec.normalised timespec.nanoseconds NSEC_IN_SEC
  unfold NSEC_IN_SEC at hne
  by_cases h : value > 1000000000
  · simp only [h, if_true]
    exact ⟨⟨by omega, by omega, by omega⟩, by omega⟩
  · simp only [h, if_false]
    exact ⟨⟨by omega, by omega, by omega⟩, by omega⟩

/-- The stored interval always has the length `value`, normalised or not. -/
theorem nanotimer.set_interval_nanoseconds (value : Nat) :
    (nanotimer.set_interval value).nanoseconds = (value : Int) := by
  unfold nanotimer.set_interval timespec.nanoseconds NSEC_IN_SEC
  by_cases h : value > 1000000000
  · simp only [h, if_true]
    omega
  · simp only [h, if_false]
    omega

/-- C20. For the value 1000000000 (one second) the test `value > NSEC_IN_SEC` is false,
so `set_interval` stores `tv_sec = 0` and `tv_nsec = 1000000000`: the nanoseconds add
up to the value, but the interval is not normalised, `tv_nsec` being outside
`[0, 999999999]`. -/
theorem nanotimer.set_interval_one_second_not_normalised :
    nanotimer.set_interval 1000000000 = { tv_sec := 0, tv_nsec := 1000000000 } ∧
    (nanotimer.set_interval 1000000000).nanoseconds = 1000000000 ∧
    ¬ (nanotimer.set_interval 1000000000).normalised ∧
    (nanotimer.set_interval 1000000001).normalised ∧
    (nanotimer.set_interval 999999999).normalised := by
  decide

end ks

/-! ## `Condition::wait` -/

namespace ks

/-- Whatever the environment does, the POSIX branch of `Condition::wait` never returns
false: it returns true or it stops. -/
theorem Condition.wait_never_false (timeout_msec now cond_wait : Int)
    (cond_timedwait : timespec → Int) (what : String) :
    Condition.wait timeout_msec now cond_wait cond_timedwait what ≠ Outcome.ok false () := by
  unfold Condition.wait
  by_cases h : timeout_msec < 0
  · by_cases h2 : cond_wait = 0
    · simp [h, h2]
    · simp [h, h2]
  · cases hd : Condition.deadline timeout_msec now with
    | none => simp [h]
    | some timeout =>
      by_cases h2 : cond_timedwait timeout = 0
      · simp [h, h2]
      · simp [h, h2]

/-- A timed wait whose primitive returns a non-zero error number, `ETIMEDOUT` included,
throws `std::runtime_error`. -/
theorem Condition.wait_raises_on_error (timeout_msec now cond_wait : Int)
    (cond_timedwait : timespec → Int) (what : String) (timeout : timespec)
    (h0 : 0 ≤ timeout_msec) (hd : Condition.deadline timeout_msec now = some timeout)
    (herr : cond_timedwait timeout ≠ 0) :
    Condition.wait timeout_msec now cond_wait cond_timedwait what =
      Outcome.fail (Fault.runtime_error what) () := by
  have h : ¬ timeout_msec < 0 := by omega
  simp [Condition.wait, h, hd, herr]

/-- C21. A timed wait of 100 ms whose `pthread_cond_timedwait` reports `ETIMEDOUT` does
not return false: the POSIX branch of `Condition::wait` takes every non-zero result
for a failure and throws `std::runtime_error`.  In no environment at all does that
branch return false, so its result does not tell a signal from a timeout.  The `_WIN32`
branch of the same method returns false when the wait was not woken. -/
theorem Condition.wait_raises_on_timeout :
    Condition.wait 100 1000000000 0 (fun _ => ETIMEDOUT) "Connection timed out" =
      Outcome.fail (Fault.runtime_error "Connection timed out") () ∧
    (∀ (timeout_msec now cond_wait : Int) (cond_timedwait : timespec → Int) (what : String),
      Condition.wait timeout_msec now cond_wait cond_timedwait what ≠ Outcome.ok false ()) ∧
    Condition.wait 100 1000000000 0 (fun _ => 0) "" = Outcome.ok true () ∧
    Condition.wait_win32 0 = false :=
  ⟨by decide, Condition.wait_never_false, by decide, by decide⟩

/-- For a timeout that is not negative and does not overflow, the deadline passed to the
timed wait has the nanosecond part of "now plus `timeout_msec` milliseconds", and its
second part is `now + (timeout_msec - tv_nsec)`, milliseconds less nanoseconds.  That
second part is the one of "now plus `timeout_msec` milliseconds" only when the whole
seconds of the timeout are 1001 times its remaining milliseconds, which no timeout
between 1 ms and 1001 s satisfies. -/
theorem Condition.deadline_fields (timeout_msec now : Int) (h0 : 0 ≤ timeout_msec)
    (h1 : timeout_msec * 1000000 ≤ 9223372036854775807)
    (h2 : -9223372036854775808 ≤ now + (timeout_msec - (timeout_msec % 1000) * 1000000))
    (h3 : now + (timeout_msec - (timeout_msec % 1000) * 1000000) ≤ 9223372036854775807) :
    ∃ t : timespec, Condition.deadline timeout_msec now = some t ∧
      t.tv_nsec = (timeout_msec % 1000) * 1000000 ∧
      t.tv_nsec = (deadlineAfter timeout_msec now).tv_nsec ∧
      0 ≤ t.tv_nsec ∧ t.tv_nsec < 1000000000 ∧
      t.tv_sec = now + (timeout_msec - (timeout_msec % 1000) * 1000000) ∧
      (t.tv_sec = (deadlineAfter timeout_msec now).tv_sec ↔
        timeout_msec / 1000 = 1001 * (timeout_msec % 1000)) ∧
      (0 < timeout_msec → timeout_msec < 1001001 →
        t.tv_sec ≠ (deadlineAfter timeout_msec now).tv_sec) := by
  have hm : Int.tmod (timeout_msec * million) billion = (timeout_msec % 1000) * 1000000 := by
    rw [Int.tmod_eq_emod (by unfold million; omega) (by unfold billion; omega)]
    unfold million billion
    omega
  have r1 : in_long (timeout_msec * million) = true := by
    unfold in_long million
    simp only [decide_eq_true_eq]
    omega
  have r2 : in_long (now + (timeout_msec - (timeout_msec % 1000) * 1000000)) = true := by
    unfold in_long
    simp only [decide_eq_true_eq]
    omega
  refine ⟨{ tv_nsec := (timeout_msec % 1000) * 1000000,
            tv_sec := now + (timeout_msec - (timeout_msec % 1000) * 1000000) }, ?_, rfl, rfl,
    ?_, ?_, rfl, ?_, ?_⟩
  · simp only [Condition.deadline, hm, r1, r2, if_true]
  · show 0 ≤ (timeout_msec % 1000) * 1000000
    omega
  · show (timeout_msec % 1000) * 1000000 < 1000000000
    omega
  · show now + (timeout_msec - (timeout_msec % 1000) * 1000000) = now + timeout_msec / 1000 ↔
      timeout_msec / 1000 = 1001 * (timeout_msec % 1000)
    omega
  · intro hpos hlt
    show now + (timeout_msec - (timeout_msec % 1000) * 1000000) ≠ now + timeout_msec / 1000
    omega

/-- C23. For `timeout_msec = 1500` and `now = 1000000000` the deadline the code builds
has the right nanosecond part, 500000000, but its second part is
`now + (1500 - 500000000) = 500001500`, far in the past, where now plus 1500 ms is
second 1000000001.  For `timeout_msec = 1000` the code adds 1000 seconds to `now`
instead of one.  For `timeout_msec = 0` the deadline is `now`, as it should be. -/
theorem Condition.deadline_mixes_milliseconds_and_nanoseconds :
    Condition.deadline 1500 1000000000 = some { tv_sec := 500001500, tv_nsec := 500000000 } ∧
    deadlineAfter 1500 1000000000 = { tv_sec := 1000000001, tv_nsec := 500000000 } ∧
    Condition.deadline 1500 1000000000 ≠ some (deadlineAfter 1500 1000000000) ∧
    Condition.deadline 1000 1000000000 = some { tv_sec := 1000001000, tv_nsec := 0 } ∧
    deadlineAfter 1000 1000000000 = { tv_sec := 1000000001, tv_nsec := 0 } ∧
    Condition.deadline 0 1000000000 = some (deadlineAfter 0 1000000000) := by
  decide

end ks
